import Mathlib

/-!
Verification development for the sequence-record I/O layer of SINA
(FASTA reader/writer in rw_fasta.cpp, CSV writer in rw_csv.cpp).

The C++ sources are shallowly embedded below: streams become an explicit
record state over a fixed character list with an explicit position and
eof/fail bits following the C++ iostream semantics, the reader and the
writers become pure state-passing functions, and every loop of the source
is translated as a fuel-indexed structural recursion whose wrapper passes
a fuel that is always sufficient (one unit per consumed input character,
plus one).  Parts of the repository that are only declared here (the
cseq record class and the query_arb field-name constants) are modelled
from the specification and marked as such in their doc comments.
-/

set_option maxRecDepth 10000

namespace SinaModel

/-- Character-list strings: all byte-level reasoning is over List Char. -/
abbrev Str := List Char

/-- Modelled from the spec: the distinguished "full name" attribute key
(query_arb::fn_fullname, declared outside src). -/
def fn_fullname : Str := "full_name".toList

/-- Modelled from the spec: the distinguished "family" attribute key
(query_arb::fn_family, declared outside src); writers filter it out. -/
def fn_family : Str := "align_family_slv".toList

/-- Identity-score attribute key; the option text in rw_fasta.cpp names it
align_idty_slv (query_arb::fn_idty). -/
def fn_idty : Str := "align_idty_slv".toList

/-! ## CSV field escaping (escape_string in rw_fasta.cpp, append in rw_csv.cpp) -/

/-- Test from find_first_of of the set double quote, comma, CR, LF
used by both escaping implementations. -/
def isSpecialFieldChar (c : Char) : Bool :=
  c = '"' || c = ',' || c = '\r' || c = '\n'

/-- Whether find_first_of of the special set differs from npos. -/
def hasSpecialField (s : Str) : Bool := s.any isSpecialFieldChar

/-- Split a string at its first double quote: returns the quote-free prefix
and the remainder after the quote (models string::find of a double quote). -/
def splitAtQuote : Str → Option (Str × Str)
  | [] => none
  | c :: cs =>
    if c = '"' then some ([], cs)
    else (splitAtQuote cs).map (fun pq => (c :: pq.1, pq.2))

/-- Loop of escape_string in rw_fasta.cpp: for each double quote at
position i it emits the text since the previous quote followed by two
double quotes, restarting after the quote (j = i+1). -/
def escLoopFasta : Nat → Str → Str
  | 0, s => s
  | fuel+1, s =>
    match splitAtQuote s with
    | none => s
    | some (pre, post) => pre ++ '"' :: '"' :: escLoopFasta fuel post

/-- Tail of the loop of append in rw_csv.cpp: the pending segment starts at
the previously found quote (j = i), so the head character is the retained
quote and the search continues in the rest. -/
def escCsvTail : Nat → Str → Str
  | 0, s => s
  | _, [] => []
  | fuel+1, c :: rest =>
    match splitAtQuote rest with
    | none => c :: rest
    | some (pre, post) => c :: pre ++ '"' :: escCsvTail fuel ('"' :: post)

/-- escape_string of rw_fasta.cpp: the fast path returns the field
verbatim when it has no special character, otherwise it wraps the field
in double quotes and doubles every internal double quote. -/
def escape_string (s : Str) : Str :=
  if hasSpecialField s then '"' :: escLoopFasta (s.length + 1) s ++ ['"']
  else s

/-- Bytes that append of rw_csv.cpp adds to its buffer for one field:
verbatim on the fast path, otherwise an opening quote, the first quote-free
segment, one inserted quote before each retained quote, and a closing
quote. -/
def appendFieldBytes (s : Str) : Str :=
  if hasSpecialField s then
    match splitAtQuote s with
    | none => '"' :: s ++ ['"']
    | some (pre, post) =>
        '"' :: (pre ++ '"' :: escCsvTail (post.length + 1) ('"' :: post)) ++ ['"']
  else s

/-- append of rw_csv.cpp, buffer-passing form. -/
def csvAppend (buf : Str) (s : Str) : Str := buf ++ appendFieldBytes s

/-- Spec-side description of the escaped body: every double quote doubled,
all other characters kept. -/
def specQuoteDouble : Str → Str
  | [] => []
  | c :: cs => if c = '"' then '"' :: '"' :: specQuoteDouble cs else c :: specQuoteDouble cs

/-- Modelled from the spec: RFC4180 parsing of a single escaped field.
Undo the doubling of quotes inside a quoted field. -/
def undoubleQuotes : Str → Str
  | [] => []
  | [c] => [c]
  | c :: d :: cs =>
    if c = '"' ∧ d = '"' then '"' :: undoubleQuotes cs
    else c :: undoubleQuotes (d :: cs)

/-- Modelled from the spec: RFC4180 parsing of a single escaped field.
A field wrapped in double quotes is unwrapped and its doubled quotes are
halved; any other field is read verbatim. -/
def rfc4180ParseField (s : Str) : Str :=
  match s with
  | '"' :: rest =>
    if rest ≠ [] ∧ rest.getLast? = some '"' then undoubleQuotes rest.dropLast
    else s
  | _ => s

/-! ## Sequence records (cseq) -/

/-- Modelled from the spec: attribute values are a small closed set of
value kinds; the reader only stores strings and the external aligner
stores the numeric identity score (floats are modelled as exact
rationals, which preserves the order comparisons the code performs). -/
inductive AttrVal where
  | strV (s : Str)
  | ratV (q : ℚ)
  deriving DecidableEq, Repr

/-- Decimal-free string coercion for numeric attribute values (modelled
from the spec: every writer path renders attributes as text). -/
def ratToStr (q : ℚ) : Str :=
  (toString q.num).toList ++ (if q.den = 1 then [] else '/' :: (toString q.den).toList)

/-- String coercion of an attribute value (lexical_cast visitor). -/
def attrValToStr : AttrVal → Str
  | .strV s => s
  | .ratV q => ratToStr q

/-- Modelled from the spec: the cseq sequence record, a name, a
named-attribute map preserving insertion order, and the residue
characters accumulated from the data lines. -/
structure Cseq where
  name : Str
  attrs : List (Str × AttrVal)
  bases : Str
  deriving DecidableEq, Repr

/-- Modelled from the spec: set_attr with last-write-wins semantics; a new
key is appended, an existing key keeps its position. -/
def setAttr (c : Cseq) (k : Str) (v : AttrVal) : Cseq :=
  { c with attrs :=
      if c.attrs.any (fun p => p.1 = k) then
        c.attrs.map (fun p => if p.1 = k then (k, v) else p)
      else c.attrs ++ [(k, v)] }

/-- Modelled from the spec: get_attr of a string-coerced attribute value;
a missing attribute renders as the empty string, not as an error. -/
def getAttrStr (c : Cseq) (k : Str) : Str :=
  match c.attrs.lookup k with
  | some v => attrValToStr v
  | none => []

/-- Modelled from the spec: get_attr of the numeric identity score; a
missing or non-numeric attribute reads as zero. -/
def getAttrRat (c : Cseq) (k : Str) : ℚ :=
  match c.attrs.lookup k with
  | some (.ratV q) => q
  | _ => 0

/-- Modelled from the spec: the recognized residue alphabet (IUPAC
nucleotide codes in both cases plus the two gap characters). -/
def validBase (c : Char) : Bool :=
  "acgtumrwsykvhdbnACGTUMRWSYKVHDBN-.".toList.contains c

/-- Modelled from the spec: cseq::append accumulates one data line of
residues, raising a bad-character exception carrying the first symbol
outside the recognized alphabet. -/
def appendBases (c : Cseq) (line : Str) : Except Char Cseq :=
  match line.find? (fun ch => !validBase ch) with
  | some bad => .error bad
  | none => .ok { c with bases := c.bases ++ line }

/-- Whitespace set of boost::trim (std::isspace in the default locale). -/
def isSpaceCh (c : Char) : Bool :=
  c = ' ' || c = '\t' || c = '\n' || c = '\x0b' || c = '\x0c' || c = '\r'

/-- boost::trim: strip whitespace from both ends. -/
def trim (s : Str) : Str :=
  ((s.dropWhile isSpaceCh).reverse.dropWhile isSpaceCh).reverse

/-- Modelled from the spec: cseq::getAligned rendering of the residues,
parameterized by the writer options; with the default options (dashes,
RNA) the stored residues are returned unchanged. -/
def renderBases (outDots outDna : Bool) (c : Cseq) : Str :=
  let b1 := if outDna then c.bases.map (fun ch => if ch = 'U' then 'T' else if ch = 'u' then 't' else ch) else c.bases
  if outDots then
    let lead := b1.takeWhile (fun ch => ch = '-')
    let rest := b1.drop lead.length
    let tail := rest.reverse.takeWhile (fun ch => ch = '-')
    let mid := rest.take (rest.length - tail.length)
    lead.map (fun _ => '.') ++ mid ++ tail.map (fun _ => '.')
  else b1

/-! ## Pipeline tray -/

/-- Pipeline tray: at most one raw input record and at most one
aligned-result record. -/
structure Tray where
  input_sequence : Option Cseq
  aligned_sequence : Option Cseq
  deriving DecidableEq, Repr

/-! ## Input stream (boost filtering_istream over the file), reader state -/

/-- Reader diagnostic for one skipped malformed record: record number,
record name, line number of the offending line and the offending
character (the constant file name is omitted). -/
structure Diag where
  seqno : Nat
  name : Str
  lineno : Nat
  badChar : Char
  deriving DecidableEq, Repr

/-- Reader state: the fixed stream content, the current byte offset, the
eof and fail bits of the istream, the line and record counters of
rw_fasta::reader::priv_data, and the emitted diagnostics. -/
structure RState where
  content : Str
  pos : Nat
  eofbit : Bool
  failbit : Bool
  lineno : Nat
  seqno : Nat
  log : List Diag
  deriving DecidableEq, Repr

/-- Whether the stream is good (no eofbit, no failbit). -/
def RState.isGood (s : RState) : Bool := !s.eofbit && !s.failbit

/-- istream::peek: a failed sentry (eofbit or failbit already set) sets
failbit; peeking at end of data sets eofbit; otherwise the next character
is returned without consuming it. -/
def peekCh (s : RState) : Option Char × RState :=
  if s.eofbit || s.failbit then (none, { s with failbit := true })
  else
    match (s.content.drop s.pos).head? with
    | some c => (some c, s)
    | none => (none, { s with eofbit := true })

/-- Line-splitting predicate of getline: true away from the newline
delimiter. -/
def neNl (c : Char) : Bool := !(c == '\n')

/-- std::getline: a failed sentry sets failbit and extracts nothing; at
end of data failbit and eofbit are set; otherwise characters up to the
next newline are extracted, the newline (when present) is consumed, and
eofbit is set when the data ran out before a newline. -/
def getlineS (s : RState) : Str × RState :=
  if s.eofbit || s.failbit then ([], { s with failbit := true })
  else
    let rest := s.content.drop s.pos
    if rest.isEmpty then ([], { s with eofbit := true, failbit := true })
    else
      let line := rest.takeWhile neNl
      if line.length < rest.length then
        (line, { s with pos := s.pos + line.length + 1 })
      else
        (line, { s with pos := s.pos + line.length, eofbit := true })

/-- istream::tellg: the current offset, or -1 when the stream has failed. -/
def tellgS (s : RState) : Int :=
  if s.failbit then -1 else (s.pos : Int)

/-- Reader options: the stream-partition descriptor
(--fasta-block, --fasta-idx). -/
structure ROpts where
  fasta_block : Nat
  fasta_idx : Nat
  deriving DecidableEq, Repr

/-- Reader construction over in-memory content: when fasta blocking is
enabled the constructor seeks to the selected block. -/
def mkReader (o : ROpts) (content : Str) : RState :=
  { content := content
    pos := if 0 < o.fasta_block then o.fasta_block * o.fasta_idx else 0
    eofbit := false, failbit := false, lineno := 0, seqno := 0, log := [] }

/-- Loop skipping lines that do not begin with a header marker:
while (in.peek() != '>' && getline(in, line).good()) lineno++. -/
def skipToHeader : Nat → RState → RState
  | 0, s => s
  | fuel+1, s =>
    let p := peekCh s
    if p.1 = some '>' then p.2
    else
      let g := getlineS p.2
      if g.2.isGood then skipToHeader fuel { g.2 with lineno := g.2.lineno + 1 }
      else g.2

/-- Title-line parsing of rw_fasta::reader::operator(): strip a trailing
carriage return, truncate find_first_of to unsigned int, take the name
between the marker and the first blank, and store the remainder after the
blank as the full-name attribute when a blank exists. -/
def parseHeader (line0 : Str) : Cseq :=
  let line := if line0.getLast? = some '\r' then line0.dropLast else line0
  let blank0 : Nat :=
    match line.findIdx? (fun c => c = ' ') with
    | none => 4294967295
    | some i => i
  let blank := if blank0 = 0 then line.length else blank0
  let c : Cseq := ⟨(line.drop 1).take (blank - 1), [], []⟩
  if blank < line.length then setAttr c fn_fullname (.strV (line.drop (blank + 1)))
  else c

/-- Comment-line loop: while the next line begins with a semicolon, a
comment containing an equals sign adds a trimmed key/value attribute and
any other comment is discarded. -/
def readComments : Nat → RState → Cseq → RState × Cseq
  | 0, s, c => (s, c)
  | fuel+1, s, c =>
    let p := peekCh s
    if p.1 = some ';' then
      let g := getlineS p.2
      if g.2.isGood then
        let s3 := { g.2 with lineno := g.2.lineno + 1 }
        let c' :=
          match g.1.findIdx? (fun ch => ch = '=') with
          | none => c
          | some eq =>
              setAttr c (trim ((g.1.drop 1).take (eq - 1))) (.strV (trim (g.1.drop (eq + 1))))
        readComments fuel s3 c'
      else (g.2, c)
    else (p.2, c)

/-- Data-line loop: all lines until end of stream or the next header line
are residue data; a bad residue character aborts the loop with the
offending character. -/
def readBody : Nat → RState → Cseq → RState × Except Char Cseq
  | 0, s, c => (s, .ok c)
  | fuel+1, s, c =>
    let p := peekCh s
    if p.1 ≠ some '>' ∧ p.2.isGood then
      let g := getlineS p.2
      let s3 := { g.2 with lineno := g.2.lineno + 1 }
      match appendBases c g.1 with
      | .ok c' => readBody fuel s3 c'
      | .error b => (s3, .error b)
    else (p.2, .ok c)

/-- Body of rw_fasta::reader::operator() with explicit retry fuel for the
recursive re-invocation after a malformed record. -/
def nextAux : Nat → ROpts → RState → Option Cseq × RState
  | 0, _, s => (none, s)
  | fuel+1, o, s0 =>
    let s := { s0 with seqno := s0.seqno + 1 }
    if s0.failbit then (none, s)
    else if 0 < o.fasta_block ∧ ((o.fasta_block * (o.fasta_idx + 1) : Nat) : Int) < tellgS s0 then
      (none, s)
    else
      let s1 := skipToHeader (s.content.length + 1) s
      let s2 := { s1 with lineno := s1.lineno + 1 }
      let g := getlineS s2
      if g.2.isGood then
        let c1 := parseHeader g.1
        let rc := readComments (g.2.content.length + 1) g.2 c1
        let rb := readBody (rc.1.content.length + 1) rc.1 rc.2
        match rb.2 with
        | .ok c3 => (some c3, rb.1)
        | .error bad =>
          let s6 := { rb.1 with log := rb.1.log ++ [⟨s.seqno, rc.2.name, rb.1.lineno, bad⟩] }
          nextAux fuel o (skipToHeader (s6.content.length + 1) s6)
      else (none, g.2)

/-- One call of rw_fasta::reader::operator(): produce the next record, or
none for EndOfInput.  The retry fuel one-per-remaining-character plus one
is always sufficient because every retry consumes at least the title
line. -/
def next (o : ROpts) (s : RState) : Option Cseq × RState :=
  nextAux (s.content.length + 1) o s

/-- Pull records until EndOfInput. -/
def readAllAux : Nat → ROpts → RState → List Cseq × RState
  | 0, _, s => ([], s)
  | fuel+1, o, s =>
    match next o s with
    | (none, s') => ([], s')
    | (some c, s') =>
      let r := readAllAux fuel o s'
      (c :: r.1, r.2)

/-- Run a reader to EndOfInput, collecting the produced records in order. -/
def readAll (o : ROpts) (s : RState) : List Cseq × RState :=
  readAllAux (s.content.length + 1) o s

/-! ## CSV writer (rw_csv.cpp) -/

/-- Concatenation of per-element byte renderings. -/
def concatMap (f : α → Str) (l : List α) : Str := (l.map f).flatten

/-- CSV writer options: the line-ending switch (--csv-crlf). -/
structure CsvOpts where
  crlf : Bool
  deriving DecidableEq, Repr

/-- Line terminator chosen at writer construction. -/
def lineEnd (o : CsvOpts) : Str := if o.crlf then ['\r', '\n'] else ['\n']

/-- CSV writer state: the configured field list, the column set fixed at
the first successful write, and whether the header row has been
printed. -/
structure CsvState where
  v_fields : List Str
  headers : List Str
  header_printed : Bool
  deriving DecidableEq, Repr

/-- Fresh CSV writer with a configured field list. -/
def mkCsvWriter (fields : List Str) : CsvState :=
  ⟨fields, [], false⟩

/-- Header row of the CSV writer: the name column followed by each column
key, each escaped, and the line terminator. -/
def csvHeaderRow (o : CsvOpts) (headers : List Str) : Str :=
  "name".toList ++ concatMap (fun h => ',' :: appendFieldBytes h) headers ++ lineEnd o

/-- Data row of the CSV writer: the escaped name, then each configured
column's string-coerced value, escaped; missing attributes render as the
empty string. -/
def csvDataRow (o : CsvOpts) (headers : List Str) (c : Cseq) : Str :=
  appendFieldBytes c.name ++
    concatMap (fun k => ',' :: appendFieldBytes (getAttrStr c k)) headers ++ lineEnd o

/-- One call of rw_csv::writer::operator(): pass the tray through
untouched when it has no aligned record; otherwise fix the column set on
the first write (the first record's attribute keys when no field list, or
only the full-name field, was configured; the configured list otherwise),
emit the header row once, and emit the record's data row. -/
def csvStep (o : CsvOpts) (st : CsvState) (t : Tray) : CsvState × Str :=
  match t.aligned_sequence with
  | none => (st, [])
  | some c =>
    if st.header_printed then (st, csvDataRow o st.headers c)
    else
      let headers :=
        if st.v_fields = [] ∨ st.v_fields = [fn_fullname]
        then c.attrs.map (fun p => p.1)
        else st.v_fields
      ({ st with headers := headers, header_printed := true },
       csvHeaderRow o headers ++ csvDataRow o headers c)

/-- Run the CSV writer over a sequence of trays, concatenating the bytes
written. -/
def csvRun (o : CsvOpts) : CsvState → List Tray → CsvState × Str
  | st, [] => (st, [])
  | st, t :: ts =>
    let r1 := csvStep o st t
    let r2 := csvRun o r1.1 ts
    (r2.1, r1.2 ++ r2.2)

/-! ## FASTA writer (rw_fasta.cpp) -/

/-- Metadata output format (--meta-fmt), a closed variant. -/
inductive FMeta where
  | mnone
  | mheader
  | mcomment
  | mcsv
  deriving DecidableEq, Repr

/-- FASTA writer options. -/
structure FOpts where
  fastameta : FMeta
  line_length : Int
  min_idty : ℚ
  out_dots : Bool
  out_dna : Bool
  deriving DecidableEq, Repr

/-- FASTA writer counters (written and excluded records). -/
structure WState where
  seqnum : Nat
  excluded : Nat
  deriving DecidableEq, Repr

/-- Informational log messages of the FASTA writer. -/
inductive WLog where
  | notAligned (seqnum : Nat) (name : Str)
  | belowIdentity (seqnum : Nat) (name : Str) (idty minIdty : ℚ)
  deriving DecidableEq, Repr

/-- Sequence-wrapping loop of the FASTA writer: fixed-width lines, each
terminated by a newline; an empty sequence emits nothing. -/
def wrapAux : Nat → Nat → Str → Str
  | 0, _, _ => []
  | _, _, [] => []
  | fuel+1, w, s => s.take w ++ '\n' :: wrapAux fuel w (s.drop w)

/-- Sequence body of the FASTA writer: wrapped into fixed-width lines when
a positive line length is configured, one unwrapped line otherwise. -/
def fastaBody (o : FOpts) (seq : Str) : Str :=
  if 0 < o.line_length then wrapAux (seq.length + 1) o.line_length.toNat seq
  else seq ++ ['\n']

/-- Header-line prefix of the FASTA writer: the marker, the name, and the
full-name attribute after a blank when it is non-empty. -/
def fastaHeadPrefix (c : Cseq) : Str :=
  let fname := getAttrStr c fn_fullname
  '>' :: c.name ++ (if fname ≠ [] then ' ' :: fname else [])

/-- Sidecar CSV header row of the csv metadata mode: the name column and
each attribute key of the first written record except the family key,
escaped, with a CRLF terminator. -/
def fastaCsvHeaderRow (c : Cseq) : Str :=
  "name".toList ++
    concatMap (fun p => ',' :: escape_string p.1)
      (c.attrs.filter (fun p => p.1 ≠ fn_family)) ++ ['\r', '\n']

/-- Sidecar CSV data row of the csv metadata mode: the unescaped name and
the current record's own attribute values except the family key, escaped,
with a CRLF terminator. -/
def fastaCsvDataRow (c : Cseq) : Str :=
  c.name ++
    concatMap (fun p => ',' :: escape_string (attrValToStr p.2))
      (c.attrs.filter (fun p => p.1 ≠ fn_family)) ++ ['\r', '\n']

/-- Metadata block of the main FASTA output directly after the header
prefix: the newline alone for the none and csv modes, inline key=value
pairs for the header mode, and per-attribute comment lines for the
comment mode. -/
def fastaMetaMain (o : FOpts) (c : Cseq) : Str :=
  match o.fastameta with
  | .mnone => ['\n']
  | .mheader =>
      concatMap (fun p => " [".toList ++ p.1 ++ '=' :: attrValToStr p.2 ++ [']'])
        (c.attrs.filter (fun p => p.1 ≠ fn_family ∧ p.1 ≠ fn_fullname)) ++ ['\n']
  | .mcomment =>
      '\n' :: concatMap (fun p => "; ".toList ++ p.1 ++ '=' :: attrValToStr p.2 ++ ['\n'])
        (c.attrs.filter (fun p => p.1 ≠ fn_family))
  | .mcsv => ['\n']

/-- Main-stream bytes the FASTA writer emits for one written record. -/
def fastaMainRecord (o : FOpts) (c : Cseq) : Str :=
  fastaHeadPrefix c ++ fastaMetaMain o c ++ fastaBody o (renderBases o.out_dots o.out_dna c)

/-- One call of rw_fasta::writer::operator(): a tray without a raw input
record is a broken tray (error); a tray without an aligned record, or
whose identity score is below the configured threshold, is counted as
excluded with an informational message and no output; otherwise the
record is written to the main stream and, in csv metadata mode, one
sidecar row (preceded by the sidecar header before the first written
record) is emitted. -/
def fastaStep (o : FOpts) (st : WState) (t : Tray) :
    Except Unit (WState × Str × Str × List WLog) :=
  match t.input_sequence with
  | none => .error ()
  | some ci =>
    match t.aligned_sequence with
    | none =>
        .ok ({ st with excluded := st.excluded + 1 }, [], [],
             [.notAligned st.seqnum ci.name])
    | some c =>
      let idty := getAttrRat c fn_idty
      if idty < o.min_idty then
        .ok ({ st with excluded := st.excluded + 1 }, [], [],
             [.belowIdentity st.seqnum ci.name idty o.min_idty])
      else
        let csvOut : Str :=
          match o.fastameta with
          | .mcsv => (if st.seqnum = 0 then fastaCsvHeaderRow c else []) ++ fastaCsvDataRow c
          | _ => []
        .ok ({ st with seqnum := st.seqnum + 1 }, fastaMainRecord o c, csvOut, [])

/-- Run the FASTA writer over a sequence of trays, concatenating the main
and sidecar bytes and the informational messages; a broken tray aborts
the run. -/
def fastaRun (o : FOpts) : WState → List Tray → Except Unit (WState × Str × Str × List WLog)
  | st, [] => .ok (st, [], [], [])
  | st, t :: ts =>
    match fastaStep o st t with
    | .error e => .error e
    | .ok (st1, m1, c1, l1) =>
      match fastaRun o st1 ts with
      | .error e => .error e
      | .ok (st2, m2, c2, l2) => .ok (st2, m1 ++ m2, c1 ++ c2, l1 ++ l2)

/-- Main-stream bytes of a FASTA writer run. -/
def fastaRunMain (o : FOpts) (st : WState) (ts : List Tray) : Str :=
  match fastaRun o st ts with
  | .ok r => r.2.1
  | .error _ => []

/-- Sidecar CSV bytes of a FASTA writer run. -/
def fastaRunCsv (o : FOpts) (st : WState) (ts : List Tray) : Str :=
  match fastaRun o st ts with
  | .ok r => r.2.2.1
  | .error _ => []

/-- Records a FASTA writer run actually writes: trays with an aligned
record whose identity score is not below the configured threshold. -/
def writtenRecords (o : FOpts) (ts : List Tray) : List Cseq :=
  ts.filterMap (fun t =>
    t.aligned_sequence.bind (fun c =>
      if getAttrRat c fn_idty < o.min_idty then none else some c))

/-! ## Concrete instances used by the claims -/

/-- Two-record FASTA file of 18 bytes whose first record spans blocks 0
to 2 of size 4 and whose second record's header begins at byte 12. -/
def fileLongRecord : Str := ">a\nCCCCCCCC\n>b\nGG\n".toList

/-- Two-record FASTA file of 14 bytes whose second record's header begins
exactly at byte 8. -/
def fileBoundary : Str := ">a\nCCCC\n>b\nGG\n".toList

/-- Record a of the two example files. -/
def recA (bases : Str) : Cseq := ⟨['a'], [], bases⟩

/-- Record b of the two example files. -/
def recB : Cseq := ⟨['b'], [], "GG".toList⟩

/-- Concatenated output of the partition readers (B, 0) .. (B, k) over a
file. -/
def partitionConcat (B k : Nat) (content : Str) : List Cseq :=
  ((List.range (k + 1)).map (fun i => (readAll ⟨B, i⟩ (mkReader ⟨B, i⟩ content)).1)).flatten

/-- Scenario input of the spec: two records, an attribute only on the
first. -/
def scenarioInput : Str := ">seq1 desc one\n;note=hello\nACGU\n>seq2\nACGT".toList

/-- Trays for the scenario records, each aligned to itself. -/
def scenarioTrays : List Tray :=
  (readAll ⟨0, 0⟩ (mkReader ⟨0, 0⟩ scenarioInput)).1.map (fun c => ⟨some c, some c⟩)

/-- CSV bytes the writer emits for the scenario with no explicit field
list. -/
def scenarioCsvOut : Str :=
  (csvRun ⟨false⟩ (mkCsvWriter []) scenarioTrays).2

/-- First record of the sidecar divergence example: one attribute. -/
def sideRec1 : Cseq := ⟨"n1".toList, [("x".toList, .strV "1".toList)], ['A']⟩

/-- Second record of the sidecar divergence example: a superset of the
first record's attribute keys. -/
def sideRec2 : Cseq :=
  ⟨"n2".toList, [("x".toList, .strV "1".toList), ("y".toList, .strV "2".toList)], ['C']⟩

/-- Trays of the sidecar divergence example. -/
def sideTrays : List Tray := [⟨some sideRec1, some sideRec1⟩, ⟨some sideRec2, some sideRec2⟩]

/-- FASTA writer options of the csv metadata mode with defaults
otherwise. -/
def optsCsvMeta : FOpts := ⟨.mcsv, 0, 0, false, false⟩

/-- FASTA writer options of the none metadata mode with defaults
otherwise. -/
def optsNoneMeta : FOpts := ⟨.mnone, 0, 0, false, false⟩

/-- Record carrying an identity score of 0.80. -/
def recIdty : Cseq := ⟨['s'], [(fn_idty, .ratV (8/10))], ['A']⟩

/-- Record with a name, a full-name attribute and residues, used to
witness the round-trip. -/
def rtRecord : Cseq :=
  ⟨"seq9".toList, [(fn_fullname, .strV "some description".toList)], "ACGU-U".toList⟩

/-! ## Lemmas about field escaping -/

theorem splitAtQuote_none : ∀ s : Str, splitAtQuote s = none → ∀ c ∈ s, c ≠ '"' := by
  intro s
  induction s with
  | nil => intro _ c hc; cases hc
  | cons a as ih =>
    intro h c hc
    by_cases ha : a = '"'
    · simp [splitAtQuote, ha] at h
    · rw [splitAtQuote, if_neg ha] at h
      cases hsq : splitAtQuote as with
      | none =>
        rw [List.mem_cons] at hc
        rcases hc with hc | hc
        · exact hc ▸ ha
        · exact ih hsq c hc
      | some pq => rw [hsq] at h; simp at h

theorem splitAtQuote_some : ∀ s pre post : Str, splitAtQuote s = some (pre, post) →
    s = pre ++ '"' :: post ∧ ∀ c ∈ pre, c ≠ '"' := by
  intro s
  induction s with
  | nil => intro pre post h; simp [splitAtQuote] at h
  | cons a as ih =>
    intro pre post h
    by_cases ha : a = '"'
    · subst ha
      rw [splitAtQuote, if_pos rfl] at h
      simp only [Option.some.injEq, Prod.mk.injEq] at h
      obtain ⟨h1, h2⟩ := h
      subst h1; subst h2
      exact ⟨rfl, by intro c hc; cases hc⟩
    · rw [splitAtQuote, if_neg ha] at h
      cases hsq : splitAtQuote as with
      | none => rw [hsq] at h; simp at h
      | some pq =>
        obtain ⟨p, q⟩ := pq
        rw [hsq] at h
        simp only [Option.map_some', Option.some.injEq, Prod.mk.injEq] at h
        obtain ⟨h1, h2⟩ := h
        subst h1; subst h2
        obtain ⟨hs1, hs2⟩ := ih p q hsq
        refine ⟨by rw [hs1]; rfl, ?_⟩
        intro c hc
        rw [List.mem_cons] at hc
        rcases hc with hc | hc
        · exact hc ▸ ha
        · exact hs2 c hc

theorem specQuoteDouble_noquote {s : Str} (h : ∀ c ∈ s, c ≠ '"') :
    specQuoteDouble s = s := by
  induction s with
  | nil => rfl
  | cons a as ih =>
    have ha : a ≠ '"' := h a (by simp)
    simp only [specQuoteDouble, if_neg ha]
    exact congrArg (a :: ·) (ih (fun c hc => h c (by simp [hc])))

theorem specQuoteDouble_append_noquote {pre : Str} (l : Str) (h : ∀ c ∈ pre, c ≠ '"') :
    specQuoteDouble (pre ++ l) = pre ++ specQuoteDouble l := by
  induction pre with
  | nil => rfl
  | cons a as ih =>
    have ha : a ≠ '"' := h a (by simp)
    simp only [List.cons_append, specQuoteDouble, if_neg ha]
    exact congrArg (a :: ·) (ih (fun c hc => h c (by simp [hc])))

theorem specQuoteDouble_ne_nil {s : Str} (h : s ≠ []) : specQuoteDouble s ≠ [] := by
  cases s with
  | nil => exact absurd rfl h
  | cons a as =>
    by_cases ha : a = '"' <;> simp [specQuoteDouble, ha]

theorem escLoopFasta_eq (fuel : Nat) (s : Str) (h : s.length ≤ fuel) :
    escLoopFasta fuel s = specQuoteDouble s := by
  induction fuel generalizing s with
  | zero =>
    have : s = [] := List.length_eq_zero.mp (Nat.le_zero.mp h)
    subst this; rfl
  | succ fuel ih =>
    cases hq : splitAtQuote s with
    | none =>
      have step : escLoopFasta (fuel + 1) s =
          match splitAtQuote s with
          | none => s
          | some (pre, post) => pre ++ '"' :: '"' :: escLoopFasta fuel post := rfl
      rw [step, hq]
      exact (specQuoteDouble_noquote (splitAtQuote_none s hq)).symm
    | some pq =>
      obtain ⟨pre, post⟩ := pq
      obtain ⟨hs, hpre⟩ := splitAtQuote_some s pre post hq
      have hlen : post.length ≤ fuel := by
        subst hs; simp [List.length_append] at h; omega
      have step : escLoopFasta (fuel + 1) s =
          match splitAtQuote s with
          | none => s
          | some (pre, post) => pre ++ '"' :: '"' :: escLoopFasta fuel post := rfl
      rw [step, hq]
      show pre ++ '"' :: '"' :: escLoopFasta fuel post = specQuoteDouble s
      rw [ih post hlen, hs, specQuoteDouble_append_noquote _ hpre]
      simp [specQuoteDouble]

theorem escCsvTail_eq (fuel : Nat) (c : Char) (rest : Str) (h : rest.length ≤ fuel) :
    escCsvTail (fuel + 1) (c :: rest) = c :: specQuoteDouble rest := by
  induction fuel generalizing c rest with
  | zero =>
    have : rest = [] := List.length_eq_zero.mp (Nat.le_zero.mp h)
    subst this; rfl
  | succ fuel ih =>
    have step : escCsvTail (fuel + 1 + 1) (c :: rest) =
        match splitAtQuote rest with
        | none => c :: rest
        | some (pre, post) => c :: pre ++ '"' :: escCsvTail (fuel + 1) ('"' :: post) := rfl
    cases hq : splitAtQuote rest with
    | none =>
      rw [step, hq]
      exact congrArg (c :: ·) (specQuoteDouble_noquote (splitAtQuote_none rest hq)).symm
    | some pq =>
      obtain ⟨pre, post⟩ := pq
      obtain ⟨hs, hpre⟩ := splitAtQuote_some rest pre post hq
      have hlen : post.length ≤ fuel := by
        subst hs; simp [List.length_append] at h; omega
      rw [step, hq]
      show c :: pre ++ '"' :: escCsvTail (fuel + 1) ('"' :: post) = c :: specQuoteDouble rest
      rw [ih '"' post hlen, hs, specQuoteDouble_append_noquote _ hpre]
      simp [specQuoteDouble]

theorem appendFieldBytes_eq_escape_string (s : Str) :
    appendFieldBytes s = escape_string s := by
  by_cases hsp : hasSpecialField s
  · have hesc : escape_string s = '"' :: specQuoteDouble s ++ ['"'] := by
      rw [escape_string, if_pos hsp, escLoopFasta_eq _ _ (Nat.le_succ_of_le (Nat.le_refl _))]
    cases hq : splitAtQuote s with
    | none =>
      have happ : appendFieldBytes s = '"' :: s ++ ['"'] := by
        rw [appendFieldBytes, hq, if_pos hsp]
      rw [happ, hesc, specQuoteDouble_noquote (splitAtQuote_none s hq)]
    | some pq =>
      obtain ⟨pre, post⟩ := pq
      obtain ⟨hs, hpre⟩ := splitAtQuote_some s pre post hq
      have happ : appendFieldBytes s =
          '"' :: (pre ++ '"' :: escCsvTail (post.length + 1) ('"' :: post)) ++ ['"'] := by
        rw [appendFieldBytes, hq, if_pos hsp]
      rw [happ, hesc, escCsvTail_eq _ _ _ (Nat.le_refl _), hs,
        specQuoteDouble_append_noquote _ hpre]
      simp [specQuoteDouble]
  · rw [appendFieldBytes, escape_string, if_neg hsp]
    cases splitAtQuote s <;> rw [if_neg hsp]

theorem undouble_specQuoteDouble (s : Str) : undoubleQuotes (specQuoteDouble s) = s := by
  induction s with
  | nil => rfl
  | cons a as ih =>
    by_cases ha : a = '"'
    · subst ha
      simp only [specQuoteDouble, if_pos rfl]
      simpa [undoubleQuotes] using ih
    · simp only [specQuoteDouble, if_neg ha]
      cases hd : specQuoteDouble as with
      | nil =>
        have : as = [] := by
          by_contra hne
          exact specQuoteDouble_ne_nil hne hd
        subst this
        rfl
      | cons d ds =>
        have : undoubleQuotes (a :: d :: ds) = a :: undoubleQuotes (d :: ds) := by
          simp [undoubleQuotes, ha]
        rw [this, ← hd, ih]

theorem no_special_no_quote {s : Str} (h : hasSpecialField s = false) :
    ∀ c ∈ s, c ≠ '"' := by
  intro c hc he
  subst he
  have := List.any_eq_false.mp (by simpa [hasSpecialField] using h) _ hc
  simp [isSpecialFieldChar] at this

theorem rfc4180ParseField_no_quote {s : Str} (h : ∀ c ∈ s, c ≠ '"') :
    rfc4180ParseField s = s := by
  cases s with
  | nil => rfl
  | cons a as =>
    have ha : a ≠ '"' := h a (by simp)
    unfold rfc4180ParseField
    cases hc : a == '"' <;> simp_all

theorem rfc4180ParseField_wrapped (body : Str) :
    rfc4180ParseField ('"' :: body ++ ['"']) = undoubleQuotes body := by
  unfold rfc4180ParseField
  simp

theorem escape_string_special {s : Str} (h : hasSpecialField s = true) :
    escape_string s = '"' :: specQuoteDouble s ++ ['"'] := by
  rw [escape_string, if_pos h, escLoopFasta_eq _ _ (Nat.le_succ_of_le (Nat.le_refl _))]

theorem escape_string_plain {s : Str} (h : hasSpecialField s = false) :
    escape_string s = s := by
  rw [escape_string, if_neg (by simp [h])]

theorem rfc4180_escape_roundtrip (s : Str) :
    rfc4180ParseField (escape_string s) = s := by
  by_cases hsp : hasSpecialField s
  · rw [escape_string_special hsp]
    have : rfc4180ParseField ('"' :: specQuoteDouble s ++ ['"']) =
        undoubleQuotes (specQuoteDouble s) := by
      have := rfc4180ParseField_wrapped (specQuoteDouble s)
      simpa using this
    rw [this, undouble_specQuoteDouble]
  · rw [escape_string_plain (Bool.of_not_eq_true hsp)]
    exact rfc4180ParseField_no_quote (no_special_no_quote (Bool.of_not_eq_true hsp))

/-- Claim C4: a field containing a double quote, comma, carriage return
or line feed is escaped by both implementations as the field wrapped in
double quotes with every internal double quote doubled; a field with none
of these characters is written verbatim; and RFC4180 parsing of the
escaped output recovers the original field. -/
theorem C4_field_escaping (s : Str) :
    (hasSpecialField s = true →
      escape_string s = '"' :: specQuoteDouble s ++ ['"'] ∧
      appendFieldBytes s = '"' :: specQuoteDouble s ++ ['"']) ∧
    (hasSpecialField s = false →
      escape_string s = s ∧ appendFieldBytes s = s) ∧
    rfc4180ParseField (escape_string s) = s ∧
    rfc4180ParseField (appendFieldBytes s) = s := by
  refine ⟨?_, ?_, rfc4180_escape_roundtrip s, ?_⟩
  · intro h
    exact ⟨escape_string_special h,
      (appendFieldBytes_eq_escape_string s).trans (escape_string_special h)⟩
  · intro h
    exact ⟨escape_string_plain h,
      (appendFieldBytes_eq_escape_string s).trans (escape_string_plain h)⟩
  · rw [appendFieldBytes_eq_escape_string]
    exact rfc4180_escape_roundtrip s

/-- Witness for C4 at the concrete fields of the claim: the field a,b is
quoted and round-trips, and a plain field is emitted unchanged. -/
theorem C4_field_escaping_witness :
    (escape_string ("a,b".toList) = '"' :: specQuoteDouble ("a,b".toList) ++ ['"'] ∧
      rfc4180ParseField (escape_string ("a,b".toList)) = "a,b".toList) ∧
    (escape_string ("ab".toList) = "ab".toList ∧
      appendFieldBytes ("ab".toList) = "ab".toList) :=
  ⟨⟨((C4_field_escaping ("a,b".toList)).1 (by decide)).1,
    (C4_field_escaping ("a,b".toList)).2.2.1⟩,
   (C4_field_escaping ("ab".toList)).2.1 (by decide)⟩

/-- Claim C10: for every buffer and every field, the bytes the rw_csv
append adds to its buffer are exactly the string rw_fasta escape_string
returns for that field. -/
theorem C10_append_refines_escape_string (buf s : Str) :
    csvAppend buf s = buf ++ escape_string s := by
  rw [csvAppend, appendFieldBytes_eq_escape_string]

/-! ## Partition behaviour of the reader -/

theorem nextAux_entry_none (fuel : Nat) (o : ROpts) (s : RState)
    (h : s.failbit = true ∨
      (0 < o.fasta_block ∧ ((o.fasta_block * (o.fasta_idx + 1) : Nat) : Int) < tellgS s)) :
    nextAux (fuel + 1) o s = (none, { s with seqno := s.seqno + 1 }) := by
  simp only [nextAux]
  by_cases hf : s.failbit
  · rw [if_pos hf]
  · rcases h with h | ⟨h1, h2⟩
    · exact absurd h hf
    · rw [if_neg hf, if_pos ⟨h1, h2⟩]

theorem next_entry_none (o : ROpts) (s : RState)
    (h : s.failbit = true ∨
      (0 < o.fasta_block ∧ ((o.fasta_block * (o.fasta_idx + 1) : Nat) : Int) < tellgS s)) :
    next o s = (none, { s with seqno := s.seqno + 1 }) := by
  rw [next]
  exact nextAux_entry_none _ o s h

/-- Claim C1 (the code evaluated at the failing input): over the 18-byte
file holding records a and b with block size B = 4 (so k = 4, r = 2), the
concatenation of the partition readers (4,0) .. (4,4) produces record b
three times — partitions 1 and 2, whose byte ranges lie inside record a's
body, also produce b — while the unpartitioned reader produces each
record exactly once, so partitioning is neither duplicate-free nor equal
to the unpartitioned sequence. -/
theorem C1_partition_duplication :
    partitionConcat 4 4 fileLongRecord =
      [recA ("CCCCCCCC".toList), recB, recB, recB] ∧
    (readAll ⟨0, 0⟩ (mkReader ⟨0, 0⟩ fileLongRecord)).1 =
      [recA ("CCCCCCCC".toList), recB] ∧
    fileLongRecord.length = 4 * 4 + 2 := by decide

/-- Counterexample to claim C2 as stated: the reader of partition (8, 0)
over the 14-byte boundary file starts and produces the record whose
header line begins exactly at byte 8, the partition's upper bound
8 * (0 + 1), contradicting that a record whose header begins at or after
the upper bound is never started. -/
theorem C2_counterexample :
    fileBoundary = ">a\nCCCC\n".toList ++ '>' :: "b\nGG\n".toList ∧
    (readAll ⟨8, 0⟩ (mkReader ⟨8, 0⟩ fileBoundary)).1 =
      [recA ("CCCC".toList), recB] := by decide

/-- Claim C2 as amended: for an active partition the reader checks only,
at the start of each call and before any reading, whether the stream has
failed or its offset has strictly passed the upper bound
block_size * (block_index + 1), signalling EndOfInput in that case; a
call that proceeds runs to the end of its record, so the record whose
header falls inside the range is completed even if its body crosses the
boundary, but a record whose header begins exactly at the upper bound is
still started (second conjunct, over the boundary file). -/
theorem C2_partition_range :
    (∀ (o : ROpts) (s : RState), 0 < o.fasta_block → s.failbit = false →
      ((o.fasta_block * (o.fasta_idx + 1) : Nat) : Int) < tellgS s →
      next o s = (none, { s with seqno := s.seqno + 1 })) ∧
    (∀ (o : ROpts) (s : RState), s.failbit = true →
      next o s = (none, { s with seqno := s.seqno + 1 })) ∧
    (readAll ⟨8, 0⟩ (mkReader ⟨8, 0⟩ fileBoundary)).1 =
      [recA ("CCCC".toList), recB] := by
  refine ⟨?_, ?_, by decide⟩
  · intro o s h1 h2 h3
    exact next_entry_none o s (Or.inr ⟨h1, h3⟩)
  · intro o s h
    exact next_entry_none o s (Or.inl h)

/-- Witness for C2: a reader of partition (8, 0) positioned at offset 9,
strictly past the upper bound 8, signals EndOfInput. -/
theorem C2_partition_range_witness :
    next ⟨8, 0⟩ ⟨fileBoundary, 9, false, false, 2, 1, []⟩ =
      (none, ⟨fileBoundary, 9, false, false, 2, 2, []⟩) :=
  C2_partition_range.1 ⟨8, 0⟩ ⟨fileBoundary, 9, false, false, 2, 1, []⟩
    (by decide) rfl (by decide)

/-! ## Attribute order and the CSV scenario -/

/-- Counterexample to claim C6 as stated: for the scenario input with no
explicit CSV fields, the CSV writer does not emit header name,note with
rows seq1,hello and seq2, because the full-name attribute parsed from
seq1's header line also becomes a column. -/
theorem C6_counterexample :
    scenarioCsvOut ≠ "name,note\nseq1,hello\nseq2,\n".toList := by decide

/-- Claim C6 as amended: the attribute map preserves insertion order (a
key not yet present is appended at the end), and for the scenario input
with no explicit CSV fields the writer emits header name,full_name,note
and then rows seq1,desc one,hello and seq2,, — the note column is fixed
from seq1, the first record, but the full-name attribute set from seq1's
header line forms a column as well, since the CSV writer does not filter
it. -/
theorem C6_attr_order_and_scenario :
    (∀ (c : Cseq) (k : Str) (v : AttrVal), (∀ p ∈ c.attrs, p.1 ≠ k) →
      (setAttr c k v).attrs = c.attrs ++ [(k, v)]) ∧
    scenarioCsvOut = "name,full_name,note\nseq1,desc one,hello\nseq2,,\n".toList := by
  refine ⟨?_, by decide⟩
  intro c k v h
  have hany : c.attrs.any (fun p => p.1 = k) = false := by
    rw [List.any_eq_false]
    intro p hp
    simpa using h p hp
  simp [setAttr, hany]

/-- Witness for C6: inserting a fresh key appends it after the existing
attributes. -/
theorem C6_attr_order_witness :
    (setAttr ⟨['x'], [(['a'], .strV ['1'])], []⟩ ['b'] (.strV ['2'])).attrs =
      [(['a'], .strV ['1'])] ++ [(['b'], .strV ['2'])] :=
  C6_attr_order_and_scenario.1 ⟨['x'], [(['a'], .strV ['1'])], []⟩ ['b'] (.strV ['2'])
    (by decide)

/-! ## Sidecar CSV of the FASTA writer -/

/-- Counterexample to claim C9 as stated: over two written records whose
second carries a superset of the first record's attribute keys, the
sidecar CSV of the FASTA writer differs from the output the CSV-writer
semantics of section 4.4 (the rw_csv writer with no field list and CRLF
line ends) produce for the same trays: the fasta sidecar's second data
row carries that record's own attributes, not the column set fixed by the
header. -/
theorem C9_counterexample :
    fastaRunCsv optsCsvMeta ⟨0, 0⟩ sideTrays ≠
      (csvRun ⟨true⟩ (mkCsvWriter []) sideTrays).2 := by decide

/-! ## CSV writer header stability -/

theorem concatMap_nil (f : α → Str) : concatMap f [] = [] := rfl

theorem concatMap_cons (f : α → Str) (a : α) (l : List α) :
    concatMap f (a :: l) = f a ++ concatMap f l := by
  simp [concatMap]

theorem csvRun_printed (o : CsvOpts) (fs : List Str) (H : List Str) :
    ∀ ts : List Tray,
      (csvRun o ⟨fs, H, true⟩ ts).2 =
        concatMap (csvDataRow o H) (ts.filterMap (fun t => t.aligned_sequence)) := by
  intro ts
  induction ts with
  | nil => rfl
  | cons t ts ih =>
    cases ht : t.aligned_sequence with
    | none => simp [csvRun, csvStep, ht, ih]
    | some c => simp [csvRun, csvStep, ht, ih, concatMap_cons]

/-- Claim C5: for a CSV writer constructed with no explicit field list,
or with the single full-name field, the whole output is the header row
built from the first written record's attribute keys, exactly once and
before the first data row, followed by one data row per written record
over that same permanently fixed column set — so a later record's extra
attribute keys never appear. -/
theorem C5_header_stability (o : CsvOpts) (fs : List Str) (ts : List Tray)
    (hfs : fs = [] ∨ fs = [fn_fullname]) :
    (csvRun o (mkCsvWriter fs) ts).2 =
      match ts.filterMap (fun t => t.aligned_sequence) with
      | [] => []
      | c :: rest =>
        csvHeaderRow o (c.attrs.map (fun p => p.1)) ++
          concatMap (csvDataRow o (c.attrs.map (fun p => p.1))) (c :: rest) := by
  induction ts with
  | nil => rfl
  | cons t ts ih =>
    cases ht : t.aligned_sequence with
    | none =>
      have : (csvRun o (mkCsvWriter fs) (t :: ts)).2 = (csvRun o (mkCsvWriter fs) ts).2 := by
        simp [csvRun, csvStep, ht, mkCsvWriter]
      rw [this, ih]
      simp [List.filterMap_cons, ht]
    | some c =>
      have hstep : csvStep o (mkCsvWriter fs) t =
          (⟨fs, c.attrs.map (fun p => p.1), true⟩,
            csvHeaderRow o (c.attrs.map (fun p => p.1)) ++
              csvDataRow o (c.attrs.map (fun p => p.1)) c) := by
        simp [csvStep, ht, mkCsvWriter, hfs]
      have : (csvRun o (mkCsvWriter fs) (t :: ts)).2 =
          (csvHeaderRow o (c.attrs.map (fun p => p.1)) ++
            csvDataRow o (c.attrs.map (fun p => p.1)) c) ++
            (csvRun o ⟨fs, c.attrs.map (fun p => p.1), true⟩ ts).2 := by
        simp [csvRun, hstep]
      rw [this, csvRun_printed]
      simp [List.filterMap_cons, ht, concatMap_cons]

/-- Witness for C5 over the two concrete trays of the superset example:
the extra key of the second record does not become a column. -/
theorem C5_header_stability_witness :
    (csvRun ⟨false⟩ (mkCsvWriter []) sideTrays).2 =
      match sideTrays.filterMap (fun t => t.aligned_sequence) with
      | [] => []
      | c :: rest =>
        csvHeaderRow ⟨false⟩ (c.attrs.map (fun p => p.1)) ++
          concatMap (csvDataRow ⟨false⟩ (c.attrs.map (fun p => p.1))) (c :: rest) :=
  C5_header_stability ⟨false⟩ [] sideTrays (Or.inl rfl)

/-! ## FASTA writer filtering -/

/-- Claim C7: a tray with a raw input record but no aligned record, or
whose aligned record's identity score lies below the configured
threshold, produces no main-stream bytes and no sidecar bytes, increments
the excluded counter by exactly one, yields one informational message
(carrying the threshold and the actual value in the identity case), and
is not an error. -/
theorem C7_writer_filtering (o : FOpts) (st : WState) (t : Tray) (ci : Cseq)
    (hin : t.input_sequence = some ci) :
    (t.aligned_sequence = none →
      fastaStep o st t = .ok ({ st with excluded := st.excluded + 1 }, [], [],
        [.notAligned st.seqnum ci.name])) ∧
    (∀ c, t.aligned_sequence = some c → getAttrRat c fn_idty < o.min_idty →
      fastaStep o st t = .ok ({ st with excluded := st.excluded + 1 }, [], [],
        [.belowIdentity st.seqnum ci.name (getAttrRat c fn_idty) o.min_idty])) := by
  constructor
  · intro ha
    simp [fastaStep, hin, ha]
  · intro c ha hlt
    simp [fastaStep, hin, ha, hlt]

/-- Witness for C7: identity 0.80 against a configured threshold 0.90 is
excluded with one informational message and no output. -/
theorem C7_writer_filtering_witness :
    getAttrRat recIdty fn_idty < (8/10 : ℚ) + 1/10 ∧
    fastaStep ⟨.mnone, 0, (8/10 : ℚ) + 1/10, false, false⟩ ⟨5, 0⟩
        ⟨some recIdty, some recIdty⟩ =
      .ok (⟨5, 1⟩, [], [],
        [.belowIdentity 5 ['s'] (getAttrRat recIdty fn_idty) ((8/10 : ℚ) + 1/10)]) :=
  ⟨by norm_num [recIdty, getAttrRat, fn_idty],
   (C7_writer_filtering ⟨.mnone, 0, (8/10 : ℚ) + 1/10, false, false⟩ ⟨5, 0⟩
      ⟨some recIdty, some recIdty⟩ recIdty rfl).2 recIdty rfl
     (by norm_num [recIdty, getAttrRat, fn_idty])⟩

/-! ## FASTA writer sidecar characterization -/

theorem writtenRecords_cons_none (o : FOpts) (t : Tray) (ts : List Tray)
    (ht : t.aligned_sequence = none) :
    writtenRecords o (t :: ts) = writtenRecords o ts := by
  simp [writtenRecords, List.filterMap_cons, ht]

theorem writtenRecords_cons_low (o : FOpts) (t : Tray) (ts : List Tray) (c : Cseq)
    (ht : t.aligned_sequence = some c) (hlt : getAttrRat c fn_idty < o.min_idty) :
    writtenRecords o (t :: ts) = writtenRecords o ts := by
  simp [writtenRecords, List.filterMap_cons, ht, hlt]

theorem writtenRecords_cons_ok (o : FOpts) (t : Tray) (ts : List Tray) (c : Cseq)
    (ht : t.aligned_sequence = some c) (hlt : ¬getAttrRat c fn_idty < o.min_idty) :
    writtenRecords o (t :: ts) = c :: writtenRecords o ts := by
  simp [writtenRecords, List.filterMap_cons, ht, hlt]

theorem fastaRun_csv_spec (o : FOpts) (hm : o.fastameta = FMeta.mcsv) :
    ∀ (ts : List Tray) (st : WState), (∀ t ∈ ts, t.input_sequence ≠ none) →
    ∃ stf logs,
      fastaRun o st ts = .ok (stf,
        concatMap (fastaMainRecord o) (writtenRecords o ts),
        (if st.seqnum = 0 then
          (match writtenRecords o ts with
           | [] => []
           | c :: _ => fastaCsvHeaderRow c)
         else []) ++ concatMap fastaCsvDataRow (writtenRecords o ts),
        logs) := by
  intro ts
  induction ts with
  | nil =>
    intro st _
    exact ⟨st, [], by simp [fastaRun, writtenRecords, concatMap]⟩
  | cons t ts ih =>
    intro st hin
    obtain ⟨ci, hci⟩ : ∃ ci, t.input_sequence = some ci := by
      cases h : t.input_sequence with
      | none => exact absurd h (hin t (by simp))
      | some ci => exact ⟨ci, rfl⟩
    have hin' : ∀ t' ∈ ts, t'.input_sequence ≠ none := fun t' h' => hin t' (by simp [h'])
    cases ht : t.aligned_sequence with
    | none =>
      have hstep : fastaStep o st t =
          .ok ({ st with excluded := st.excluded + 1 }, [], [],
            [.notAligned st.seqnum ci.name]) := by
        simp [fastaStep, hci, ht]
      obtain ⟨stf, logs, hrun⟩ := ih { st with excluded := st.excluded + 1 } hin'
      refine ⟨stf, [WLog.notAligned st.seqnum ci.name] ++ logs, ?_⟩
      simp [fastaRun, hstep, hrun, writtenRecords_cons_none o t ts ht]
    | some c =>
      by_cases hlt : getAttrRat c fn_idty < o.min_idty
      · have hstep : fastaStep o st t =
            .ok ({ st with excluded := st.excluded + 1 }, [], [],
              [.belowIdentity st.seqnum ci.name (getAttrRat c fn_idty) o.min_idty]) := by
          simp [fastaStep, hci, ht, hlt]
        obtain ⟨stf, logs, hrun⟩ := ih { st with excluded := st.excluded + 1 } hin'
        refine ⟨stf, [WLog.belowIdentity st.seqnum ci.name (getAttrRat c fn_idty) o.min_idty]
          ++ logs, ?_⟩
        simp [fastaRun, hstep, hrun, writtenRecords_cons_low o t ts c ht hlt]
      · have hstep : fastaStep o st t =
            .ok ({ st with seqnum := st.seqnum + 1 }, fastaMainRecord o c,
              (if st.seqnum = 0 then fastaCsvHeaderRow c else []) ++ fastaCsvDataRow c,
              []) := by
          simp [fastaStep, hci, ht, hlt, hm]
        obtain ⟨stf, logs, hrun⟩ := ih { st with seqnum := st.seqnum + 1 } hin'
        refine ⟨stf, logs, ?_⟩
        rw [writtenRecords_cons_ok o t ts c ht hlt]
        simp [fastaRun, hstep, hrun, concatMap_cons]

theorem fastaRun_main_spec (o : FOpts) :
    ∀ (ts : List Tray) (st : WState), (∀ t ∈ ts, t.input_sequence ≠ none) →
    ∃ stf csvb logs,
      fastaRun o st ts = .ok (stf,
        concatMap (fastaMainRecord o) (writtenRecords o ts), csvb, logs) := by
  intro ts
  induction ts with
  | nil =>
    intro st _
    exact ⟨st, [], [], by simp [fastaRun, writtenRecords, concatMap]⟩
  | cons t ts ih =>
    intro st hin
    obtain ⟨ci, hci⟩ : ∃ ci, t.input_sequence = some ci := by
      cases h : t.input_sequence with
      | none => exact absurd h (hin t (by simp))
      | some ci => exact ⟨ci, rfl⟩
    have hin' : ∀ t' ∈ ts, t'.input_sequence ≠ none := fun t' h' => hin t' (by simp [h'])
    cases ht : t.aligned_sequence with
    | none =>
      have hstep : fastaStep o st t =
          .ok ({ st with excluded := st.excluded + 1 }, [], [],
            [.notAligned st.seqnum ci.name]) := by
        simp [fastaStep, hci, ht]
      obtain ⟨stf, csvb, logs, hrun⟩ := ih { st with excluded := st.excluded + 1 } hin'
      refine ⟨stf, csvb, [WLog.notAligned st.seqnum ci.name] ++ logs, ?_⟩
      simp [fastaRun, hstep, hrun, writtenRecords_cons_none o t ts ht]
    | some c =>
      by_cases hlt : getAttrRat c fn_idty < o.min_idty
      · have hstep : fastaStep o st t =
            .ok ({ st with excluded := st.excluded + 1 }, [], [],
              [.belowIdentity st.seqnum ci.name (getAttrRat c fn_idty) o.min_idty]) := by
          simp [fastaStep, hci, ht, hlt]
        obtain ⟨stf, csvb, logs, hrun⟩ := ih { st with excluded := st.excluded + 1 } hin'
        refine ⟨stf, csvb, [WLog.belowIdentity st.seqnum ci.name (getAttrRat c fn_idty)
          o.min_idty] ++ logs, ?_⟩
        simp [fastaRun, hstep, hrun, writtenRecords_cons_low o t ts c ht hlt]
      · have hstep0 : ∃ csvO, fastaStep o st t =
            .ok ({ st with seqnum := st.seqnum + 1 }, fastaMainRecord o c, csvO, []) := by
          cases hmm : o.fastameta with
          | mcsv =>
            exact ⟨(if st.seqnum = 0 then fastaCsvHeaderRow c else []) ++ fastaCsvDataRow c,
              by simp [fastaStep, hci, ht, hlt, hmm]⟩
          | mnone => exact ⟨[], by simp [fastaStep, hci, ht, hlt, hmm]⟩
          | mheader => exact ⟨[], by simp [fastaStep, hci, ht, hlt, hmm]⟩
          | mcomment => exact ⟨[], by simp [fastaStep, hci, ht, hlt, hmm]⟩
        obtain ⟨csvO, hstep⟩ := hstep0
        obtain ⟨stf, csvb, logs, hrun⟩ := ih { st with seqnum := st.seqnum + 1 } hin'
        refine ⟨stf, csvO ++ csvb, logs, ?_⟩
        rw [writtenRecords_cons_ok o t ts c ht hlt]
        simp [fastaRun, hstep, hrun, concatMap_cons]

theorem fastaMainRecord_csv_eq_none (o : FOpts) (hm : o.fastameta = FMeta.mcsv) (c : Cseq) :
    fastaMainRecord { o with fastameta := FMeta.mnone } c = fastaMainRecord o c := by
  simp [fastaMainRecord, fastaMetaMain, hm, fastaBody, fastaHeadPrefix]

/-- Claim C9 as amended: in csv metadata mode the main stream carries no
inline metadata (its bytes equal those of the none mode over the same
trays); the sidecar CSV consists of its header row, built from the first
written record and emitted exactly once before the first data row,
followed by one data row per written record; but each data row carries
the current record's own attributes (except the family key), rather than
the column set fixed by the sidecar header as section 4.4 semantics
would. -/
theorem C9_sidecar_csv (o : FOpts) (ts : List Tray) (hm : o.fastameta = FMeta.mcsv)
    (hin : ∀ t ∈ ts, t.input_sequence ≠ none) :
    fastaRunMain o ⟨0, 0⟩ ts = fastaRunMain { o with fastameta := FMeta.mnone } ⟨0, 0⟩ ts ∧
    fastaRunCsv o ⟨0, 0⟩ ts =
      (match writtenRecords o ts with
       | [] => []
       | c :: _ => fastaCsvHeaderRow c) ++
        concatMap fastaCsvDataRow (writtenRecords o ts) := by
  constructor
  · obtain ⟨s1, cb1, lg1, h1⟩ := fastaRun_main_spec o ts ⟨0, 0⟩ hin
    obtain ⟨s2, cb2, lg2, h2⟩ :=
      fastaRun_main_spec { o with fastameta := FMeta.mnone } ts ⟨0, 0⟩ hin
    rw [fastaRunMain, h1, fastaRunMain, h2]
    have hw : writtenRecords { o with fastameta := FMeta.mnone } ts = writtenRecords o ts := rfl
    rw [hw]
    have hmap : (writtenRecords o ts).map (fastaMainRecord { o with fastameta := FMeta.mnone })
        = (writtenRecords o ts).map (fastaMainRecord o) :=
      List.map_congr_left (fun a _ => fastaMainRecord_csv_eq_none o hm a)
    rw [concatMap, concatMap, hmap]
  · obtain ⟨stf, logs, hrun⟩ := fastaRun_csv_spec o hm ts ⟨0, 0⟩ hin
    rw [fastaRunCsv, hrun]
    simp

/-- Witness for C9 over the two-record superset example. -/
theorem C9_sidecar_csv_witness :
    fastaRunMain optsCsvMeta ⟨0, 0⟩ sideTrays =
      fastaRunMain { optsCsvMeta with fastameta := FMeta.mnone } ⟨0, 0⟩ sideTrays ∧
    fastaRunCsv optsCsvMeta ⟨0, 0⟩ sideTrays =
      (match writtenRecords optsCsvMeta sideTrays with
       | [] => []
       | c :: _ => fastaCsvHeaderRow c) ++
        concatMap fastaCsvDataRow (writtenRecords optsCsvMeta sideTrays) :=
  C9_sidecar_csv optsCsvMeta sideTrays rfl (by decide)

/-! ## Stream primitive lemmas -/

theorem peekCh_cons {s : RState} {c : Char} {r : Str}
    (he : s.eofbit = false) (hf : s.failbit = false)
    (hd : s.content.drop s.pos = c :: r) :
    peekCh s = (some c, s) := by
  simp [peekCh, he, hf, hd]

theorem peekCh_nil {s : RState}
    (he : s.eofbit = false) (hf : s.failbit = false)
    (hd : s.content.drop s.pos = []) :
    peekCh s = (none, { s with eofbit := true }) := by
  simp [peekCh, he, hf, hd]

theorem peekCh_bad {s : RState} (h : s.eofbit = true ∨ s.failbit = true) :
    peekCh s = (none, { s with failbit := true }) := by
  rcases h with h | h <;> simp [peekCh, h]

theorem getlineS_bad {s : RState} (h : s.eofbit = true ∨ s.failbit = true) :
    getlineS s = ([], { s with failbit := true }) := by
  rcases h with h | h <;> simp [getlineS, h]

theorem neNl_nl : neNl '\n' = false := by decide

theorem neNl_of_ne {c : Char} (h : c ≠ '\n') : neNl c = true := by
  simp [neNl, h]

theorem takeWhile_ne_nl (l r : Str) (h : ∀ b ∈ l, b ≠ '\n') :
    (l ++ '\n' :: r).takeWhile neNl = l := by
  induction l with
  | nil => simp [List.takeWhile_cons, neNl_nl]
  | cons a as ih =>
    have ha : neNl a = true := neNl_of_ne (h a (by simp))
    simp only [List.cons_append, List.takeWhile_cons, ha, if_true]
    exact congrArg (a :: ·) (ih (fun b hb => h b (by simp [hb])))

theorem getlineS_line {s : RState} {l r : Str}
    (he : s.eofbit = false) (hf : s.failbit = false)
    (hd : s.content.drop s.pos = l ++ '\n' :: r)
    (hl : ∀ b ∈ l, b ≠ '\n') :
    getlineS s = (l, { s with pos := s.pos + l.length + 1 }) := by
  have hne : (l ++ '\n' :: r).isEmpty = false := by cases l <;> rfl
  have htw : (l ++ '\n' :: r).takeWhile neNl = l := takeWhile_ne_nl l r hl
  have hlt : l.length < (l ++ '\n' :: r).length := by
    simp [List.length_append]
  simp [getlineS, he, hf, hd, hne, htw, hlt]

theorem drop_pos_add {content : Str} {pos k : Nat} {x : Str}
    (hd : content.drop pos = x) :
    content.drop (pos + k) = x.drop k :=
  calc content.drop (pos + k) = (content.drop pos).drop k := (List.drop_drop k pos content).symm
    _ = x.drop k := by rw [hd]

theorem drop_append_exact {l₁ l₂ : Str} {n : Nat} (h : n = l₁.length) :
    (l₁ ++ l₂).drop n = l₂ := by
  subst h; exact List.drop_left l₁ l₂

/-! ## Reader loop lemmas -/

theorem skipToHeader_header {s : RState} {r : Str} (fuel : Nat)
    (he : s.eofbit = false) (hf : s.failbit = false)
    (hd : s.content.drop s.pos = '>' :: r) :
    skipToHeader (fuel + 1) s = s := by
  simp [skipToHeader, peekCh_cons he hf hd]

theorem skipToHeader_bad {s : RState} (fuel : Nat)
    (h : s.eofbit = true ∨ s.failbit = true) :
    skipToHeader (fuel + 1) s = { s with failbit := true } := by
  have hp := peekCh_bad h
  have hg : getlineS { s with failbit := true } =
      ([], { s with failbit := true }) := by
    have := getlineS_bad (s := { s with failbit := true }) (Or.inr rfl)
    simpa using this
  simp [skipToHeader, hp, hg, RState.isGood]

theorem readComments_exit {s : RState} {ch : Char} {r : Str} (fuel : Nat) (c : Cseq)
    (he : s.eofbit = false) (hf : s.failbit = false)
    (hd : s.content.drop s.pos = ch :: r) (hch : ch ≠ ';') :
    readComments (fuel + 1) s c = (s, c) := by
  simp [readComments, peekCh_cons he hf hd, hch]

theorem find?_first_invalid {p q : Str} {bad : Char}
    (hp : ∀ b ∈ p, validBase b = true) (hbad : validBase bad = false) :
    (p ++ bad :: q).find? (fun ch => !validBase ch) = some bad := by
  induction p with
  | nil => simp [List.find?_cons, hbad]
  | cons a as ih =>
    have ha := hp a (by simp)
    simp only [List.cons_append, List.find?_cons, ha]
    simpa using ih (fun b hb => hp b (by simp [hb]))

theorem appendBases_ok {c : Cseq} {l : Str} (h : ∀ b ∈ l, validBase b = true) :
    appendBases c l = .ok { c with bases := c.bases ++ l } := by
  have hnone : l.find? (fun ch => !validBase ch) = none := by
    rw [List.find?_eq_none]
    intro x hx
    simp [h x hx]
  simp [appendBases, hnone]

theorem appendBases_bad {c : Cseq} {p q : Str} {bad : Char}
    (hp : ∀ b ∈ p, validBase b = true) (hbad : validBase bad = false) :
    appendBases c (p ++ bad :: q) = .error bad := by
  simp [appendBases, find?_first_invalid hp hbad]

theorem validBase_marks {ch : Char} (h : validBase ch = true) :
    ch ≠ '>' ∧ ch ≠ ';' ∧ ch ≠ '\n' := by
  refine ⟨?_, ?_, ?_⟩ <;> rintro rfl <;> revert h <;> decide

theorem readBody_good_line {s : RState} {l r : Str} (fuel : Nat) (c : Cseq)
    (he : s.eofbit = false) (hf : s.failbit = false)
    (hd : s.content.drop s.pos = l ++ '\n' :: r)
    (hl : ∀ b ∈ l, validBase b = true) :
    readBody (fuel + 1) s c =
      readBody fuel { s with pos := s.pos + l.length + 1, lineno := s.lineno + 1 }
        { c with bases := c.bases ++ l } := by
  have hpk : ∃ ch rr, l ++ '\n' :: r = ch :: rr ∧ ch ≠ '>' := by
    cases l with
    | nil => exact ⟨'\n', r, rfl, by decide⟩
    | cons a as => exact ⟨a, as ++ '\n' :: r, rfl, (validBase_marks (hl a (by simp))).1⟩
  obtain ⟨ch, rr, hcr, hch⟩ := hpk
  have hp := peekCh_cons he hf (hcr ▸ hd)
  have hg := getlineS_line he hf hd (fun b hb => (validBase_marks (hl b hb)).2.2)
  have ha := appendBases_ok (c := c) hl
  simp [readBody, hp, hg, ha, RState.isGood, he, hf, hch]

theorem readBody_exit_gt {s : RState} {r : Str} (fuel : Nat) (c : Cseq)
    (he : s.eofbit = false) (hf : s.failbit = false)
    (hd : s.content.drop s.pos = '>' :: r) :
    readBody (fuel + 1) s c = (s, .ok c) := by
  have hp := peekCh_cons he hf hd
  simp [readBody, hp]

theorem readBody_exit_eof {s : RState} (fuel : Nat) (c : Cseq)
    (he : s.eofbit = false) (hf : s.failbit = false)
    (hd : s.content.drop s.pos = []) :
    readBody (fuel + 1) s c = ({ s with eofbit := true }, .ok c) := by
  have hp := peekCh_nil he hf hd
  simp [readBody, hp, RState.isGood]

theorem readBody_bad_line {s : RState} {p q r : Str} {bad : Char} (fuel : Nat) (c : Cseq)
    (he : s.eofbit = false) (hf : s.failbit = false)
    (hd : s.content.drop s.pos = (p ++ bad :: q) ++ '\n' :: r)
    (hp : ∀ b ∈ p, validBase b = true)
    (hbad : validBase bad = false)
    (hb1 : bad ≠ '\n') (hb2 : bad ≠ '>')
    (hq : ∀ b ∈ q, b ≠ '\n') :
    readBody (fuel + 1) s c =
      ({ s with pos := s.pos + (p ++ bad :: q).length + 1, lineno := s.lineno + 1 },
       .error bad) := by
  have hpk : ∃ ch rr, (p ++ bad :: q) ++ '\n' :: r = ch :: rr ∧ ch ≠ '>' := by
    cases p with
    | nil => exact ⟨bad, q ++ '\n' :: r, rfl, hb2⟩
    | cons a as =>
      exact ⟨a, (as ++ bad :: q) ++ '\n' :: r, by simp, (validBase_marks (hp a (by simp))).1⟩
  obtain ⟨ch, rr, hcr, hch⟩ := hpk
  have hpek := peekCh_cons he hf (hcr ▸ hd)
  have hnl : ∀ b ∈ p ++ bad :: q, b ≠ '\n' := by
    intro b hb
    rcases List.mem_append.mp hb with hb | hb
    · exact (validBase_marks (hp b hb)).2.2
    · rcases List.mem_cons.mp hb with hb | hb
      · exact hb ▸ hb1
      · exact hq b hb
  have hg := getlineS_line he hf hd hnl
  have ha := appendBases_bad (c := c) (q := q) hp hbad
  simp [readBody, hpek, hg, ha, RState.isGood, he, hf, hch]

/-! ## Header parsing lemmas -/

theorem findIdx?_none_of {p : Char → Bool} {l : Str} (h : ∀ b ∈ l, p b = false) :
    l.findIdx? p = none := by
  induction l with
  | nil => rfl
  | cons a as ih =>
    have ha := h a (by simp)
    simp [List.findIdx?_cons, ha, ih (fun b hb => h b (by simp [hb]))]

theorem findIdx?_append_first {p : Char → Bool} {l r : Str} {a : Char}
    (hl : ∀ b ∈ l, p b = false) (ha : p a = true) :
    (l ++ a :: r).findIdx? p = some l.length := by
  induction l with
  | nil => simp [List.findIdx?_cons, ha]
  | cons x xs ih =>
    have hx := hl x (by simp)
    have := ih (fun b hb => hl b (by simp [hb]))
    simp [List.findIdx?_cons, hx, this]

theorem parseHeader_nospace {name : Str}
    (h : ∀ b ∈ name, b ≠ ' ' ∧ b ≠ '\r')
    (hlen : name.length < 4294967294) :
    parseHeader ('>' :: name) = ⟨name, [], []⟩ := by
  have hnr : ¬(('>' :: name).getLast? = some '\r') := by
    intro hlast
    have hx : '\r' ∈ '>' :: name := List.mem_of_mem_getLast? hlast
    rcases List.mem_cons.mp hx with h1 | h1
    · exact absurd h1 (by decide)
    · exact (h _ h1).2 rfl
  have hfi : ('>' :: name).findIdx? (fun c => c = ' ') = none := by
    apply findIdx?_none_of
    intro b hb
    rcases List.mem_cons.mp hb with h1 | h1
    · subst h1; decide
    · simp [(h b h1).1]
  have htake : name.take (4294967295 - 1) = name :=
    List.take_of_length_le (by omega)
  have hnlt : ¬(4294967295 < ('>' :: name).length) := by
    simp only [List.length_cons]
    omega
  simp [parseHeader, hnr, hfi, htake, hnlt]
  exact fun h' => absurd h' (by omega)

theorem parseHeader_space {name fn : Str}
    (hn : ∀ b ∈ name, b ≠ ' ' ∧ b ≠ '\r')
    (hfr : fn.getLast? ≠ some '\r') :
    parseHeader ('>' :: (name ++ ' ' :: fn)) = ⟨name, [(fn_fullname, .strV fn)], []⟩ := by
  have hsplit : '>' :: (name ++ ' ' :: fn) = ('>' :: name) ++ ' ' :: fn := by simp
  have hlast : ('>' :: (name ++ ' ' :: fn)).getLast? = (' ' :: fn).getLast? := by
    rw [hsplit]
    exact List.getLast?_append_cons ('>' :: name) ' ' fn
  have hnr : ¬(('>' :: (name ++ ' ' :: fn)).getLast? = some '\r') := by
    rw [hlast]
    cases fn with
    | nil => decide
    | cons a as =>
      rw [List.getLast?_cons_cons]
      exact hfr
  have hfi : ('>' :: (name ++ ' ' :: fn)).findIdx? (fun c => c = ' ') =
      some (name.length + 1) := by
    rw [hsplit]
    have := findIdx?_append_first (p := fun c => decide (c = ' ')) (l := '>' :: name)
      (r := fn) (a := ' ')
      (by
        intro b hb
        rcases List.mem_cons.mp hb with h1 | h1
        · subst h1; decide
        · simp [(hn b h1).1])
      (by decide)
    simpa using this
  have hblank : name.length + 1 ≠ 0 := by omega
  have htake : (name ++ ' ' :: fn).take (name.length + 1 - 1) = name := by
    have : name.length + 1 - 1 = name.length := by omega
    rw [this]
    exact List.take_left name (' ' :: fn)
  have hlt : name.length + 1 < ('>' :: (name ++ ' ' :: fn)).length := by
    simp [List.length_append]
  have hdrop : ('>' :: (name ++ ' ' :: fn)).drop (name.length + 1 + 1) = fn := by
    have hre : '>' :: (name ++ ' ' :: fn) = (('>' :: name) ++ [' ']) ++ fn := by simp
    rw [hre]
    exact drop_append_exact (by simp [List.length_append])
  simp [parseHeader, hnr, hfi, hblank, htake, hlt, hdrop, setAttr]

/-! ## Reading one record symbolically -/

theorem nextAux_at_record (fuel : Nat) (o : ROpts) (s : RState) (tl : Str)
    {ch : Char} {rr : Str}
    (ho : o.fasta_block = 0)
    (he : s.eofbit = false) (hf : s.failbit = false)
    (hd : s.content.drop s.pos = ('>' :: tl) ++ '\n' :: (ch :: rr))
    (htl : ∀ b ∈ tl, b ≠ '\n')
    (hch : ch ≠ ';') :
    nextAux (fuel + 1) o s =
      (let s3 : RState :=
         { s with
             pos := s.pos + (tl.length + 1) + 1
             lineno := s.lineno + 1
             seqno := s.seqno + 1 }
       let c1 := parseHeader ('>' :: tl)
       let rb := readBody (s.content.length + 1) s3 c1
       match rb.2 with
       | .ok c3 => (some c3, rb.1)
       | .error bad =>
           nextAux fuel o (skipToHeader (rb.1.content.length + 1)
             { rb.1 with log := rb.1.log ++ [⟨s.seqno + 1, c1.name, rb.1.lineno, bad⟩] })) := by
  have hd2 : s.content.drop s.pos = '>' :: (tl ++ '\n' :: (ch :: rr)) := by simpa using hd
  have hsk : skipToHeader (s.content.length + 1) { s with seqno := s.seqno + 1 } =
      { s with seqno := s.seqno + 1 } :=
    skipToHeader_header s.content.length (s := { s with seqno := s.seqno + 1 }) he hf hd2
  have hgl : getlineS { s with seqno := s.seqno + 1, lineno := s.lineno + 1 } =
      ('>' :: tl,
       { s with
           seqno := s.seqno + 1
           lineno := s.lineno + 1
           pos := s.pos + (tl.length + 1) + 1 }) := by
    have := getlineS_line (s := { s with seqno := s.seqno + 1, lineno := s.lineno + 1 })
      he hf hd (by
        intro b hb
        rcases List.mem_cons.mp hb with h1 | h1
        · subst h1; decide
        · exact htl b h1)
    simpa using this
  have hpos3 : s.pos + (tl.length + 1) + 1 = s.pos + (tl.length + 2) := by omega
  have hdrop3 : s.content.drop (s.pos + (tl.length + 1) + 1) = ch :: rr := by
    rw [hpos3, drop_pos_add hd]
    have hre : ('>' :: tl) ++ '\n' :: (ch :: rr) = (('>' :: tl) ++ ['\n']) ++ (ch :: rr) := by
      simp
    rw [hre]
    exact drop_append_exact (by simp)
  have hrc : readComments (s.content.length + 1)
      { s with
          seqno := s.seqno + 1
          lineno := s.lineno + 1
          pos := s.pos + (tl.length + 1) + 1 } (parseHeader ('>' :: tl)) =
      ({ s with
           seqno := s.seqno + 1
           lineno := s.lineno + 1
           pos := s.pos + (tl.length + 1) + 1 }, parseHeader ('>' :: tl)) :=
    readComments_exit s.content.length _ he hf hdrop3 hch
  simp only [nextAux]
  rw [if_neg (by simp [hf]), if_neg (by simp [ho])]
  rw [he, hf] at hsk hgl hrc
  simp [hsk, hgl, hrc, RState.isGood, he, hf]

theorem nextAux_record_gt (fuel : Nat) (o : ROpts) (s : RState) (tl body B : Str)
    (ho : o.fasta_block = 0)
    (he : s.eofbit = false) (hf : s.failbit = false)
    (hd : s.content.drop s.pos = ('>' :: tl) ++ '\n' :: (body ++ '\n' :: ('>' :: B)))
    (htl : ∀ b ∈ tl, b ≠ '\n')
    (hb : ∀ b ∈ body, validBase b = true) :
    nextAux (fuel + 1) o s =
      (some { parseHeader ('>' :: tl) with
                bases := (parseHeader ('>' :: tl)).bases ++ body },
       { s with
           pos := s.pos + (tl.length + 1) + 1 + body.length + 1
           lineno := s.lineno + 1 + 1
           seqno := s.seqno + 1 }) := by
  obtain ⟨ch, rr, hcr, hch⟩ :
      ∃ ch rr, body ++ '\n' :: ('>' :: B) = ch :: rr ∧ ch ≠ ';' := by
    cases body with
    | nil => exact ⟨'\n', '>' :: B, rfl, by decide⟩
    | cons a as =>
      exact ⟨a, as ++ '\n' :: ('>' :: B), rfl, (validBase_marks (hb a (by simp))).2.1⟩
  have hdr := hd
  rw [hcr] at hdr
  rw [nextAux_at_record fuel o s tl ho he hf hdr htl hch]
  have hpos3 : s.pos + (tl.length + 1) + 1 = s.pos + (tl.length + 2) := by omega
  have hdrop3 : s.content.drop (s.pos + (tl.length + 1) + 1) =
      body ++ '\n' :: ('>' :: B) := by
    rw [hpos3, drop_pos_add hd]
    have hre : ('>' :: tl) ++ '\n' :: (body ++ '\n' :: ('>' :: B)) =
        (('>' :: tl) ++ ['\n']) ++ (body ++ '\n' :: ('>' :: B)) := by simp
    rw [hre]
    exact drop_append_exact (by simp)
  have hclen : 1 ≤ s.content.length := by
    have hlen := congrArg List.length hd
    rw [List.length_drop] at hlen
    simp [List.length_append] at hlen
    omega
  have hrb1 := readBody_good_line
    (s := { s with
              pos := s.pos + (tl.length + 1) + 1
              lineno := s.lineno + 1
              seqno := s.seqno + 1 })
    s.content.length (parseHeader ('>' :: tl)) he hf hdrop3 hb
  have hdrop4 : s.content.drop (s.pos + (tl.length + 1) + 1 + body.length + 1) =
      '>' :: B := by
    have h4 : s.pos + (tl.length + 1) + 1 + body.length + 1 =
        s.pos + (tl.length + 1) + 1 + (body.length + 1) := by omega
    rw [h4, drop_pos_add hdrop3]
    have hre : body ++ '\n' :: ('>' :: B) = (body ++ ['\n']) ++ ('>' :: B) := by simp
    rw [hre]
    exact drop_append_exact (by simp)
  have hsucc : s.content.length = (s.content.length - 1) + 1 := by omega
  have hrb2 : readBody s.content.length
      { s with
          pos := s.pos + (tl.length + 1) + 1 + body.length + 1
          lineno := s.lineno + 1 + 1
          seqno := s.seqno + 1 }
      { parseHeader ('>' :: tl) with
          bases := (parseHeader ('>' :: tl)).bases ++ body } =
      ({ s with
           pos := s.pos + (tl.length + 1) + 1 + body.length + 1
           lineno := s.lineno + 1 + 1
           seqno := s.seqno + 1 },
       .ok { parseHeader ('>' :: tl) with
               bases := (parseHeader ('>' :: tl)).bases ++ body }) := by
    rw [hsucc]
    exact readBody_exit_gt _ _ he hf hdrop4
  rw [he, hf] at hrb1 hrb2
  simp [hrb1, hrb2, he, hf]

theorem nextAux_record_eof (fuel : Nat) (o : ROpts) (s : RState) (tl body : Str)
    (ho : o.fasta_block = 0)
    (he : s.eofbit = false) (hf : s.failbit = false)
    (hd : s.content.drop s.pos = ('>' :: tl) ++ '\n' :: (body ++ ['\n']))
    (htl : ∀ b ∈ tl, b ≠ '\n')
    (hb : ∀ b ∈ body, validBase b = true) :
    nextAux (fuel + 1) o s =
      (some { parseHeader ('>' :: tl) with
                bases := (parseHeader ('>' :: tl)).bases ++ body },
       { s with
           pos := s.pos + (tl.length + 1) + 1 + body.length + 1
           lineno := s.lineno + 1 + 1
           seqno := s.seqno + 1
           eofbit := true }) := by
  obtain ⟨ch, rr, hcr, hch⟩ : ∃ ch rr, body ++ ['\n'] = ch :: rr ∧ ch ≠ ';' := by
    cases body with
    | nil => exact ⟨'\n', [], rfl, by decide⟩
    | cons a as => exact ⟨a, as ++ ['\n'], rfl, (validBase_marks (hb a (by simp))).2.1⟩
  have hdr := hd
  rw [hcr] at hdr
  rw [nextAux_at_record fuel o s tl ho he hf hdr htl hch]
  have hpos3 : s.pos + (tl.length + 1) + 1 = s.pos + (tl.length + 2) := by omega
  have hdrop3 : s.content.drop (s.pos + (tl.length + 1) + 1) = body ++ ['\n'] := by
    rw [hpos3, drop_pos_add hd]
    have hre : ('>' :: tl) ++ '\n' :: (body ++ ['\n']) =
        (('>' :: tl) ++ ['\n']) ++ (body ++ ['\n']) := by simp
    rw [hre]
    exact drop_append_exact (by simp)
  have hclen : 1 ≤ s.content.length := by
    have hlen := congrArg List.length hd
    rw [List.length_drop] at hlen
    simp [List.length_append] at hlen
    omega
  have hrb1 := readBody_good_line
    (s := { s with
              pos := s.pos + (tl.length + 1) + 1
              lineno := s.lineno + 1
              seqno := s.seqno + 1 })
    s.content.length (parseHeader ('>' :: tl)) he hf hdrop3 hb
  have hdrop4 : s.content.drop (s.pos + (tl.length + 1) + 1 + body.length + 1) = [] := by
    have h4 : s.pos + (tl.length + 1) + 1 + body.length + 1 =
        s.pos + (tl.length + 1) + 1 + (body.length + 1) := by omega
    rw [h4, drop_pos_add hdrop3]
    rw [show body.length + 1 = (body ++ ['\n']).length from by simp]
    exact List.drop_length _
  have hsucc : s.content.length = (s.content.length - 1) + 1 := by omega
  have hrb2 : readBody s.content.length
      { s with
          pos := s.pos + (tl.length + 1) + 1 + body.length + 1
          lineno := s.lineno + 1 + 1
          seqno := s.seqno + 1 }
      { parseHeader ('>' :: tl) with
          bases := (parseHeader ('>' :: tl)).bases ++ body } =
      ({ s with
           pos := s.pos + (tl.length + 1) + 1 + body.length + 1
           lineno := s.lineno + 1 + 1
           seqno := s.seqno + 1
           eofbit := true },
       .ok { parseHeader ('>' :: tl) with
               bases := (parseHeader ('>' :: tl)).bases ++ body }) := by
    rw [hsucc]
    have := readBody_exit_eof
      (s := { s with
                pos := s.pos + (tl.length + 1) + 1 + body.length + 1
                lineno := s.lineno + 1 + 1
                seqno := s.seqno + 1 })
      (s.content.length - 1)
      { parseHeader ('>' :: tl) with
          bases := (parseHeader ('>' :: tl)).bases ++ body } he hf hdrop4
    simpa using this
  rw [he, hf] at hrb1 hrb2
  simp [hrb1, hrb2, he, hf]

theorem nextAux_record_bad (fuel : Nat) (o : ROpts) (s : RState)
    (tl p q B : Str) (bad : Char)
    (ho : o.fasta_block = 0)
    (he : s.eofbit = false) (hf : s.failbit = false)
    (hd : s.content.drop s.pos =
      ('>' :: tl) ++ '\n' :: ((p ++ bad :: q) ++ '\n' :: ('>' :: B)))
    (htl : ∀ b ∈ tl, b ≠ '\n')
    (hp : ∀ b ∈ p, validBase b = true)
    (hbad : validBase bad = false)
    (hb1 : bad ≠ '\n') (hb2 : bad ≠ '>') (hb3 : bad ≠ ';')
    (hq : ∀ b ∈ q, b ≠ '\n') :
    nextAux (fuel + 1) o s =
      nextAux fuel o
        { s with
            pos := s.pos + (tl.length + 1) + 1 + (p ++ bad :: q).length + 1
            lineno := s.lineno + 1 + 1
            seqno := s.seqno + 1
            log := s.log ++ [⟨s.seqno + 1, (parseHeader ('>' :: tl)).name,
                              s.lineno + 1 + 1, bad⟩] } := by
  obtain ⟨ch, rr, hcr, hch⟩ :
      ∃ ch rr, (p ++ bad :: q) ++ '\n' :: ('>' :: B) = ch :: rr ∧ ch ≠ ';' := by
    cases p with
    | nil => exact ⟨bad, q ++ '\n' :: ('>' :: B), rfl, hb3⟩
    | cons a as =>
      exact ⟨a, (as ++ bad :: q) ++ '\n' :: ('>' :: B), by simp,
        (validBase_marks (hp a (by simp))).2.1⟩
  have hdr := hd
  rw [hcr] at hdr
  rw [nextAux_at_record fuel o s tl ho he hf hdr htl hch]
  have hpos3 : s.pos + (tl.length + 1) + 1 = s.pos + (tl.length + 2) := by omega
  have hdrop3 : s.content.drop (s.pos + (tl.length + 1) + 1) =
      (p ++ bad :: q) ++ '\n' :: ('>' :: B) := by
    rw [hpos3, drop_pos_add hd]
    have hre : ('>' :: tl) ++ '\n' :: ((p ++ bad :: q) ++ '\n' :: ('>' :: B)) =
        (('>' :: tl) ++ ['\n']) ++ ((p ++ bad :: q) ++ '\n' :: ('>' :: B)) := by simp
    rw [hre]
    exact drop_append_exact (by simp)
  have hclen : 1 ≤ s.content.length := by
    have hlen := congrArg List.length hd
    rw [List.length_drop] at hlen
    simp [List.length_append] at hlen
    omega
  have hsucc : s.content.length = (s.content.length - 1) + 1 := by omega
  have hrb : readBody (s.content.length + 1)
      { s with
          pos := s.pos + (tl.length + 1) + 1
          lineno := s.lineno + 1
          seqno := s.seqno + 1 }
      (parseHeader ('>' :: tl)) =
      ({ s with
           pos := s.pos + (tl.length + 1) + 1 + (p ++ bad :: q).length + 1
           lineno := s.lineno + 1 + 1
           seqno := s.seqno + 1 }, .error bad) := by
    have := readBody_bad_line
      (s := { s with
                pos := s.pos + (tl.length + 1) + 1
                lineno := s.lineno + 1
                seqno := s.seqno + 1 })
      s.content.length (parseHeader ('>' :: tl)) he hf hdrop3 hp hbad hb1 hb2 hq
    simpa using this
  have hdrop4 : s.content.drop
      (s.pos + (tl.length + 1) + 1 + (p ++ bad :: q).length + 1) = '>' :: B := by
    have h4 : s.pos + (tl.length + 1) + 1 + (p ++ bad :: q).length + 1 =
        s.pos + (tl.length + 1) + 1 + ((p ++ bad :: q).length + 1) := by omega
    rw [h4, drop_pos_add hdrop3]
    have hre : (p ++ bad :: q) ++ '\n' :: ('>' :: B) =
        ((p ++ bad :: q) ++ ['\n']) ++ ('>' :: B) := by simp
    rw [hre]
    exact drop_append_exact (by simp; omega)
  have hskip : skipToHeader (s.content.length + 1)
      { s with
          pos := s.pos + (tl.length + 1) + 1 + (p ++ bad :: q).length + 1
          lineno := s.lineno + 1 + 1
          seqno := s.seqno + 1
          log := s.log ++ [⟨s.seqno + 1, (parseHeader ('>' :: tl)).name,
                            s.lineno + 1 + 1, bad⟩] } =
      { s with
          pos := s.pos + (tl.length + 1) + 1 + (p ++ bad :: q).length + 1
          lineno := s.lineno + 1 + 1
          seqno := s.seqno + 1
          log := s.log ++ [⟨s.seqno + 1, (parseHeader ('>' :: tl)).name,
                            s.lineno + 1 + 1, bad⟩] } :=
    skipToHeader_header s.content.length he hf hdrop4
  rw [he, hf] at hrb hskip
  simp only [List.length_append, List.length_cons] at hrb hskip
  simp [hrb, hskip, he, hf, List.length_append]

theorem nextAux_end (fuel : Nat) (o : ROpts) (s : RState)
    (he : s.eofbit = true) (hf : s.failbit = false) (ho : o.fasta_block = 0) :
    nextAux (fuel + 1) o s =
      (none, { s with seqno := s.seqno + 1, lineno := s.lineno + 1, failbit := true }) := by
  have hsk : skipToHeader (s.content.length + 1) { s with seqno := s.seqno + 1 } =
      { s with seqno := s.seqno + 1, failbit := true } := by
    have := skipToHeader_bad (s := { s with seqno := s.seqno + 1 })
      s.content.length (Or.inl he)
    simpa using this
  have hgl : getlineS { s with seqno := s.seqno + 1, failbit := true, lineno := s.lineno + 1 } =
      ([], { s with seqno := s.seqno + 1, failbit := true, lineno := s.lineno + 1 }) := by
    have := getlineS_bad
      (s := { s with seqno := s.seqno + 1, failbit := true, lineno := s.lineno + 1 })
      (Or.inr rfl)
    simpa using this
  simp only [nextAux]
  rw [if_neg (by simp [hf]), if_neg (by simp [ho])]
  rw [he] at hsk
  rw [hf] at hsk
  rw [he] at hgl
  simp [hsk, hgl, RState.isGood, he, hf]

/-! ## Round-trip through write and read -/

/-- Claim C8: writing a record with the FASTA writer in none metadata
mode (default options) and reading the produced bytes back with the FASTA
reader yields a record with the same name, the same residues, and the
same full-name attribute value; the hypotheses restrict the record to
names without blanks, newlines or carriage returns, full names without
newlines or a trailing carriage return, and residues inside the
recognized alphabet — the only records the FASTA framing can carry. -/
theorem C8_roundtrip (c : Cseq)
    (hname : ∀ b ∈ c.name, b ≠ ' ' ∧ b ≠ '\n' ∧ b ≠ '\r')
    (hnlen : c.name.length < 4294967294)
    (hfn : ∀ b ∈ getAttrStr c fn_fullname, b ≠ '\n')
    (hfr : (getAttrStr c fn_fullname).getLast? ≠ some '\r')
    (hb : ∀ b ∈ c.bases, validBase b = true)
    (hidty : ¬getAttrRat c fn_idty < (0 : ℚ)) :
    fastaRunMain optsNoneMeta ⟨0, 0⟩ [⟨some c, some c⟩] = fastaMainRecord optsNoneMeta c ∧
    ∃ r, (next ⟨0, 0⟩ (mkReader ⟨0, 0⟩ (fastaMainRecord optsNoneMeta c))).1 = some r ∧
      r.name = c.name ∧ r.bases = c.bases ∧
      getAttrStr r fn_fullname = getAttrStr c fn_fullname := by
  constructor
  · have hge : ¬getAttrRat c fn_idty < optsNoneMeta.min_idty := by
      simpa [optsNoneMeta] using hidty
    simp [fastaRunMain, fastaRun, fastaStep, hge]
  · have hcon : (mkReader ⟨0, 0⟩ (fastaMainRecord optsNoneMeta c)).content =
        fastaMainRecord optsNoneMeta c := rfl
    by_cases hfe : getAttrStr c fn_fullname = []
    · have hcontent : fastaMainRecord optsNoneMeta c =
          ('>' :: c.name) ++ '\n' :: (c.bases ++ ['\n']) := by
        simp [fastaMainRecord, fastaHeadPrefix, fastaMetaMain, fastaBody, renderBases,
          optsNoneMeta, hfe]
      have hd0 : (mkReader ⟨0, 0⟩ (fastaMainRecord optsNoneMeta c)).content.drop
          (mkReader ⟨0, 0⟩ (fastaMainRecord optsNoneMeta c)).pos =
          ('>' :: c.name) ++ '\n' :: (c.bases ++ ['\n']) := by
        simp [mkReader, hcontent]
      have hnext := nextAux_record_eof
        (fastaMainRecord optsNoneMeta c).length ⟨0, 0⟩
        (mkReader ⟨0, 0⟩ (fastaMainRecord optsNoneMeta c)) c.name c.bases rfl rfl rfl hd0
        (fun b hb2 => (hname b hb2).2.1) hb
      have hph : parseHeader ('>' :: c.name) = ⟨c.name, [], []⟩ :=
        parseHeader_nospace (fun b hb2 => ⟨(hname b hb2).1, (hname b hb2).2.2⟩) hnlen
      rw [hph] at hnext
      refine ⟨⟨c.name, [], c.bases⟩, ?_, rfl, rfl, ?_⟩
      · rw [next, hcon, hnext]
        simp
      · rw [hfe]; rfl
    · have hcontent : fastaMainRecord optsNoneMeta c =
          ('>' :: (c.name ++ ' ' :: getAttrStr c fn_fullname)) ++
            '\n' :: (c.bases ++ ['\n']) := by
        simp [fastaMainRecord, fastaHeadPrefix, fastaMetaMain, fastaBody, renderBases,
          optsNoneMeta, hfe]
      have hd0 : (mkReader ⟨0, 0⟩ (fastaMainRecord optsNoneMeta c)).content.drop
          (mkReader ⟨0, 0⟩ (fastaMainRecord optsNoneMeta c)).pos =
          ('>' :: (c.name ++ ' ' :: getAttrStr c fn_fullname)) ++
            '\n' :: (c.bases ++ ['\n']) := by
        simp [mkReader, hcontent]
      have htl : ∀ b ∈ c.name ++ ' ' :: getAttrStr c fn_fullname, b ≠ '\n' := by
        intro b hb2
        rcases List.mem_append.mp hb2 with h1 | h1
        · exact (hname b h1).2.1
        · rcases List.mem_cons.mp h1 with h1 | h1
          · subst h1; decide
          · exact hfn b h1
      have hnext := nextAux_record_eof
        (fastaMainRecord optsNoneMeta c).length ⟨0, 0⟩
        (mkReader ⟨0, 0⟩ (fastaMainRecord optsNoneMeta c))
        (c.name ++ ' ' :: getAttrStr c fn_fullname) c.bases rfl rfl rfl hd0 htl hb
      have hph : parseHeader ('>' :: (c.name ++ ' ' :: getAttrStr c fn_fullname)) =
          ⟨c.name, [(fn_fullname, .strV (getAttrStr c fn_fullname))], []⟩ :=
        parseHeader_space (fun b hb2 => ⟨(hname b hb2).1, (hname b hb2).2.2⟩) hfr
      rw [hph] at hnext
      refine ⟨⟨c.name, [(fn_fullname, .strV (getAttrStr c fn_fullname))], c.bases⟩,
        ?_, rfl, rfl, ?_⟩
      · rw [next, hcon, hnext]
        simp
      · simp [getAttrStr, List.lookup, attrValToStr]

/-- Witness for C8 at a concrete record with a name, a full-name
attribute and residues. -/
theorem C8_roundtrip_witness :
    fastaRunMain optsNoneMeta ⟨0, 0⟩ [⟨some rtRecord, some rtRecord⟩] =
      fastaMainRecord optsNoneMeta rtRecord ∧
    ∃ r, (next ⟨0, 0⟩ (mkReader ⟨0, 0⟩ (fastaMainRecord optsNoneMeta rtRecord))).1 =
      some r ∧
      r.name = rtRecord.name ∧ r.bases = rtRecord.bases ∧
      getAttrStr r fn_fullname = getAttrStr rtRecord fn_fullname :=
  C8_roundtrip rtRecord (by decide) (by decide) (by decide) (by decide) (by decide)
    (by decide)

theorem readAllAux_step_some (fuel : Nat) (o : ROpts) (s s' : RState) (c : Cseq)
    (h : next o s = (some c, s')) :
    readAllAux (fuel + 1) o s =
      ((c :: (readAllAux fuel o s').1, (readAllAux fuel o s').2)) := by
  simp [readAllAux, h]

theorem readAllAux_step_none (fuel : Nat) (o : ROpts) (s s' : RState)
    (h : next o s = (none, s')) :
    readAllAux (fuel + 1) o s = ([], s') := by
  simp [readAllAux, h]

/-- Claim C3: for an unpartitioned input stream holding three records where
only the second contains an out-of-alphabet residue character, reading the
whole stream yields exactly the first and third records, the malformed
record is discarded, and exactly one diagnostic is logged carrying the
malformed record's sequence number, its header name, the line number of the
offending body line, and the offending character; the error is never
surfaced to the caller, who sees only the two valid records and then end of
input. -/
theorem C3_malformed_isolation (n1 n2 n3 b1 b3 p q : Str) (bad : Char)
    (hn1 : ∀ b ∈ n1, b ≠ ' ' ∧ b ≠ '\n' ∧ b ≠ '\r') (hl1 : n1.length < 4294967294)
    (hn2 : ∀ b ∈ n2, b ≠ ' ' ∧ b ≠ '\n' ∧ b ≠ '\r') (hl2 : n2.length < 4294967294)
    (hn3 : ∀ b ∈ n3, b ≠ ' ' ∧ b ≠ '\n' ∧ b ≠ '\r') (hl3 : n3.length < 4294967294)
    (hb1 : ∀ b ∈ b1, validBase b = true)
    (hb3 : ∀ b ∈ b3, validBase b = true)
    (hp : ∀ b ∈ p, validBase b = true)
    (hbad : validBase bad = false)
    (hbnl : bad ≠ '\n') (hbgt : bad ≠ '>') (hbsc : bad ≠ ';')
    (hq : ∀ b ∈ q, b ≠ '\n')
    (content : Str)
    (hc : content = ('>' :: n1) ++ '\n' :: (b1 ++ '\n' :: (('>' :: n2) ++ '\n' ::
      ((p ++ bad :: q) ++ '\n' :: (('>' :: n3) ++ '\n' :: (b3 ++ ['\n'])))))) :
    (readAll ⟨0, 0⟩ (mkReader ⟨0, 0⟩ content)).1 = [⟨n1, [], b1⟩, ⟨n3, [], b3⟩] ∧
    (readAll ⟨0, 0⟩ (mkReader ⟨0, 0⟩ content)).2.log = [⟨2, n2, 4, bad⟩] := by
  have hL1 : 1 ≤ content.length := by
    rw [hc]; simp only [List.length_append, List.length_cons]; omega
  have hL2 : 2 ≤ content.length := by
    rw [hc]; simp only [List.length_append, List.length_cons]; omega
  have hd1 : content.drop 0 =
      ('>' :: n1) ++ '\n' :: (b1 ++ '\n' :: ('>' :: (n2 ++ '\n' ::
      ((p ++ bad :: q) ++ '\n' :: (('>' :: n3) ++ '\n' :: (b3 ++ ['\n'])))))) := by
    rw [hc]; simp
  have h1 := nextAux_record_gt content.length ⟨0, 0⟩
    ⟨content, 0, false, false, 0, 0, []⟩ n1 b1
    (n2 ++ '\n' :: ((p ++ bad :: q) ++ '\n' :: (('>' :: n3) ++ '\n' :: (b3 ++ ['\n']))))
    rfl rfl rfl hd1 (fun b hb => (hn1 b hb).2.1) hb1
  rw [parseHeader_nospace (fun b hb => ⟨(hn1 b hb).1, (hn1 b hb).2.2⟩) hl1] at h1
  simp only [Nat.zero_add, Nat.reduceAdd, List.nil_append] at h1
  have hs1 : next ⟨0, 0⟩ ⟨content, 0, false, false, 0, 0, []⟩ =
      (some ⟨n1, [], b1⟩,
       ⟨content, n1.length + 1 + 1 + b1.length + 1, false, false, 2, 1, []⟩) := by
    rw [next]; exact h1
  have hd2 : content.drop (n1.length + 1 + 1 + b1.length + 1) =
      ('>' :: n2) ++ '\n' :: ((p ++ bad :: q) ++ '\n' ::
        ('>' :: (n3 ++ '\n' :: (b3 ++ ['\n'])))) := by
    rw [hc]
    have hre : ('>' :: n1) ++ '\n' :: (b1 ++ '\n' :: (('>' :: n2) ++ '\n' ::
        ((p ++ bad :: q) ++ '\n' :: (('>' :: n3) ++ '\n' :: (b3 ++ ['\n']))))) =
        (('>' :: n1) ++ '\n' :: (b1 ++ ['\n'])) ++
        (('>' :: n2) ++ '\n' :: ((p ++ bad :: q) ++ '\n' ::
          ('>' :: (n3 ++ '\n' :: (b3 ++ ['\n']))))) := by simp
    rw [hre]
    exact drop_append_exact (by simp; omega)
  have h2a := nextAux_record_bad content.length ⟨0, 0⟩
    ⟨content, n1.length + 1 + 1 + b1.length + 1, false, false, 2, 1, []⟩
    n2 p q (n3 ++ '\n' :: (b3 ++ ['\n'])) bad rfl rfl rfl hd2
    (fun b hb => (hn2 b hb).2.1) hp hbad hbnl hbgt hbsc hq
  rw [parseHeader_nospace (fun b hb => ⟨(hn2 b hb).1, (hn2 b hb).2.2⟩) hl2] at h2a
  simp only [Nat.zero_add, Nat.reduceAdd, List.nil_append] at h2a
  have hd3 : content.drop (n1.length + 1 + 1 + b1.length + 1 + (n2.length + 1) + 1 +
      List.length (p ++ bad :: q) + 1) =
      ('>' :: n3) ++ '\n' :: (b3 ++ ['\n']) := by
    rw [hc]
    have hre : ('>' :: n1) ++ '\n' :: (b1 ++ '\n' :: (('>' :: n2) ++ '\n' ::
        ((p ++ bad :: q) ++ '\n' :: (('>' :: n3) ++ '\n' :: (b3 ++ ['\n']))))) =
        ((('>' :: n1) ++ '\n' :: (b1 ++ ['\n'])) ++
         (('>' :: n2) ++ '\n' :: ((p ++ bad :: q) ++ ['\n']))) ++
        (('>' :: n3) ++ '\n' :: (b3 ++ ['\n'])) := by simp
    rw [hre]
    exact drop_append_exact (by simp [List.length_append]; omega)
  have h2b := nextAux_record_eof (content.length - 1) ⟨0, 0⟩
    ⟨content, n1.length + 1 + 1 + b1.length + 1 + (n2.length + 1) + 1 +
      List.length (p ++ bad :: q) + 1, false, false, 4, 2,
      [⟨2, n2, 4, bad⟩]⟩ n3 b3 rfl rfl rfl hd3
    (fun b hb => (hn3 b hb).2.1) hb3
  rw [parseHeader_nospace (fun b hb => ⟨(hn3 b hb).1, (hn3 b hb).2.2⟩) hl3] at h2b
  simp only [Nat.zero_add, Nat.reduceAdd, List.nil_append] at h2b
  have hLs : content.length - 1 + 1 = content.length := by omega
  rw [hLs] at h2b
  have hs2 : next ⟨0, 0⟩
      ⟨content, n1.length + 1 + 1 + b1.length + 1, false, false, 2, 1, []⟩ =
      (some ⟨n3, [], b3⟩,
       ⟨content, n1.length + 1 + 1 + b1.length + 1 + (n2.length + 1) + 1 +
          List.length (p ++ bad :: q) + 1 + (n3.length + 1) + 1 + b3.length + 1,
        true, false, 6, 3, [⟨2, n2, 4, bad⟩]⟩) := by
    rw [next]; exact h2a.trans h2b
  have hs3 : next ⟨0, 0⟩
      ⟨content, n1.length + 1 + 1 + b1.length + 1 + (n2.length + 1) + 1 +
          List.length (p ++ bad :: q) + 1 + (n3.length + 1) + 1 + b3.length + 1,
        true, false, 6, 3, [⟨2, n2, 4, bad⟩]⟩ =
      (none,
       ⟨content, n1.length + 1 + 1 + b1.length + 1 + (n2.length + 1) + 1 +
          List.length (p ++ bad :: q) + 1 + (n3.length + 1) + 1 + b3.length + 1,
        true, true, 7, 4, [⟨2, n2, 4, bad⟩]⟩) := by
    rw [next]
    have hend := nextAux_end content.length ⟨0, 0⟩
      ⟨content, n1.length + 1 + 1 + b1.length + 1 + (n2.length + 1) + 1 +
          List.length (p ++ bad :: q) + 1 + (n3.length + 1) + 1 + b3.length + 1,
        true, false, 6, 3, [⟨2, n2, 4, bad⟩]⟩ rfl rfl rfl
    simpa using hend
  have hmk : mkReader ⟨0, 0⟩ content = ⟨content, 0, false, false, 0, 0, []⟩ := by
    simp [mkReader]
  have hall : readAll ⟨0, 0⟩ (mkReader ⟨0, 0⟩ content) =
      ([⟨n1, [], b1⟩, ⟨n3, [], b3⟩],
       ⟨content, n1.length + 1 + 1 + b1.length + 1 + (n2.length + 1) + 1 +
          List.length (p ++ bad :: q) + 1 + (n3.length + 1) + 1 + b3.length + 1,
        true, true, 7, 4, [⟨2, n2, 4, bad⟩]⟩) := by
    rw [readAll, hmk]
    show readAllAux (content.length + 1) ⟨0, 0⟩ ⟨content, 0, false, false, 0, 0, []⟩ = _
    rw [readAllAux_step_some content.length ⟨0, 0⟩ _ _ _ hs1]
    rw [show content.length = (content.length - 1) + 1 from by omega]
    rw [readAllAux_step_some (content.length - 1) ⟨0, 0⟩ _ _ _ hs2]
    rw [show content.length - 1 = (content.length - 2) + 1 from by omega]
    rw [readAllAux_step_none (content.length - 2) ⟨0, 0⟩ _ _ hs3]
  rw [hall]
  exact ⟨rfl, rfl⟩

/-- Witness for C3 over the stream ">r1\nACGU\n>r2\nAC!U\n>r3\nGG\n": the
reader yields r1 and r3 and logs one diagnostic for r2, naming sequence
number 2, name r2, line 4 and the character '!'. -/
theorem C3_malformed_isolation_witness :
    (readAll ⟨0, 0⟩ (mkReader ⟨0, 0⟩
      ['>', 'r', '1', '\n', 'A', 'C', 'G', 'U', '\n', '>', 'r', '2', '\n',
       'A', 'C', '!', 'U', '\n', '>', 'r', '3', '\n', 'G', 'G', '\n'])).1 =
      [⟨['r', '1'], [], ['A', 'C', 'G', 'U']⟩, ⟨['r', '3'], [], ['G', 'G']⟩] ∧
    (readAll ⟨0, 0⟩ (mkReader ⟨0, 0⟩
      ['>', 'r', '1', '\n', 'A', 'C', 'G', 'U', '\n', '>', 'r', '2', '\n',
       'A', 'C', '!', 'U', '\n', '>', 'r', '3', '\n', 'G', 'G', '\n'])).2.log =
      [⟨2, ['r', '2'], 4, '!'⟩] :=
  C3_malformed_isolation ['r', '1'] ['r', '2'] ['r', '3']
    ['A', 'C', 'G', 'U'] ['G', 'G'] ['A', 'C'] ['U'] '!'
    (by decide) (by decide) (by decide) (by decide) (by decide) (by decide)
    (by decide) (by decide) (by decide) (by decide)
    (by decide) (by decide) (by decide) (by decide)
    _ rfl


end SinaModel
